import Mathlib

/-!
# poco `pkg/extractor`: a shallow embedding of `Extract`

`Extract` resolves the shared libraries of a list of binaries and copies the
libraries and the binaries into an output directory, mirroring each file's
original path.  The embedding has three layers:

* the lexical path functions of the Go standard library that `Extract` calls
  (`path.Clean`, `path.Dir`, `filepath.Base`, `filepath.Join`, unix flavour),
  transcribed byte for byte over `List Char`;
* the collaborators `ldd.Ldd`, `os.MkdirAll` and `cp.Copy`, taken as
  parameters (`World`);
* `Extract` itself, as a function from a world and a list of options to the
  returned error and the final state (event trace, destination tree, printed
  lines, copies still in flight).
-/

namespace Poco

/-! ## Paths -/

/-- A Go string holding a path, as its sequence of characters. -/
abbrev Path := List Char

/-- The inner loop of the `..` case of `path.Clean`:
`for out.w > dotdot && out.index(out.w) != '/' { out.w-- }`, returning the
final `out.w`. -/
def backLoop (buf : List Char) (dotdot : Nat) : Nat → Nat
  | 0 => 0
  | w + 1 =>
    if w + 1 > dotdot ∧ buf.getD (w + 1) '/' ≠ '/' then backLoop buf dotdot w else w + 1

/-- The test `r+1 == n || path[r+1] == '/'` of `path.Clean`, on the text that
follows position `r`. -/
def elemEnd : List Char → Bool
  | [] => true
  | c :: _ => c = '/'

/-- The main loop of `path.Clean`.  `r` is the unread part of the path, `out`
the bytes written so far (`out.w = out.length`), `dotdot` the index where `..`
must stop.  Every iteration reads at least one byte, so `r.length` iterations
are enough; the first argument counts them. -/
def cleanLoop (rooted : Bool) : Nat → List Char → List Char → Nat → List Char
  | 0, _, out, _ => out
  | _ + 1, [], out, _ => out
  | fuel + 1, c :: rest, out, dotdot =>
    if c = '/' then
      -- empty path element
      cleanLoop rooted fuel rest out dotdot
    else if c = '.' ∧ elemEnd rest = true then
      -- . element
      cleanLoop rooted fuel rest out dotdot
    else if c = '.' ∧ rest.head? = some '.' ∧ elemEnd rest.tail = true then
      -- .. element: remove to last /
      if out.length > dotdot then
        cleanLoop rooted fuel rest.tail
          (out.take (backLoop out dotdot (out.length - 1))) dotdot
      else if rooted = false then
        let out1 := (if out.length > 0 then out ++ ['/'] else out) ++ ['.', '.']
        cleanLoop rooted fuel rest.tail out1 out1.length
      else
        cleanLoop rooted fuel rest.tail out dotdot
    else
      -- real path element: add slash if needed, copy element
      let out1 :=
        if (rooted = true ∧ out.length ≠ 1) ∨ (rooted = false ∧ out.length ≠ 0) then
          out ++ ['/']
        else out
      cleanLoop rooted fuel ((c :: rest).dropWhile (fun x => x ≠ '/'))
        (out1 ++ (c :: rest).takeWhile (fun x => x ≠ '/')) dotdot

/-- Go `path.Clean` (and `filepath.Clean` on unix): the shortest path name
equivalent to `path` by purely lexical processing. -/
def Clean (path : Path) : Path :=
  if path = [] then ['.']
  else
    let rooted : Bool := path.head? = some '/'
    let out :=
      if rooted then cleanLoop true path.length path.tail ['/'] 1
      else cleanLoop false path.length path [] 0
    if out = [] then ['.'] else out

/-- The directory half of Go `path.Split`: `path[:i+1]` for `i` the index of
the last slash (`-1` when there is none). -/
def splitDir (path : Path) : Path :=
  (path.reverse.dropWhile (fun x => x ≠ '/')).reverse

/-- Go `path.Dir`: all but the last element of `path`, cleaned. -/
def Dir (path : Path) : Path := Clean (splitDir path)

/-- Go `filepath.Base` on unix: the last element of `path`, trailing slashes
removed first; `.` for the empty path and `/` for a path of slashes only. -/
def Base (path : Path) : Path :=
  if path = [] then ['.']
  else
    let p := (path.reverse.dropWhile (fun x => x = '/')).reverse
    let p := (p.reverse.takeWhile (fun x => x ≠ '/')).reverse
    if p = [] then ['/'] else p

/-- Go `filepath.Join` on unix: the elements from the first non-empty one on,
joined with `/` and cleaned; the empty string when all are empty. -/
def Join (elem : List Path) : Path :=
  match elem.dropWhile (fun e => e = []) with
  | [] => []
  | e :: es => Clean (List.intercalate ['/'] (e :: es))

/-- The destination of the spec's path mapper:
`join(root, directoryOf(source))/baseName(source)`. -/
def mapPath (root source : Path) : Path :=
  Join [Join [root, Dir source], Base source]

/-! ## Collaborators and state -/

/-- A Go `error` value, by its message. -/
abbrev Error := String

/-- An `ldd.FileInfo`: the resolved path of a dependency and the `Name()` of
its embedded `os.FileInfo`. -/
structure FileInfo where
  FullName : Path
  Name : Path
deriving DecidableEq, Repr

/-- The extractor configuration. -/
structure config where
  files : List Path
  outDir : Path
deriving DecidableEq, Repr

/-- An extractor option: it updates the configuration or fails. -/
abbrev option := config → Except Error config

/-- WithFiles sets the input files of the packer. -/
def WithFiles (s : List Path) : option :=
  fun k => .ok { k with files := s }

/-- WithOutputDir sets the output dir of the packer. -/
def WithOutputDir (s : Path) : option :=
  fun k => .ok { k with outDir := s }

/-- The collaborators of `Extract`: the dependency resolver `ldd.Ldd`,
`os.MkdirAll` and `cp.Copy`, each by the error it returns (`none` for `nil`). -/
structure World where
  Ldd : List Path → Except Error (List FileInfo)
  MkdirAll : Path → Option Error
  Copy : Path → Path → Option Error

/-- What the goroutine running `Extract` does, in order. -/
inductive Event where
  | mkdir (dir : Path) (err : Option Error)
  | dispatch (src dest : Path)
  | wait
deriving DecidableEq, Repr

/-- The observable state of a run: the events so far, the paths that exist in
the destination tree, the lines printed, and the copies that were dispatched
and not yet joined by `wg.Wait`. -/
structure State where
  trace : List Event
  tree : List Path
  stdout : List String
  inflight : List (Path × Path)
deriving DecidableEq, Repr

/-- The closure `copyFile` of `Extract`: copy, and print the error if there is
one.  It returns nothing to its caller. -/
def copyFile (w : World) (st : State) (src dest : Path) : State :=
  match w.Copy src dest with
  | some err => { st with stdout := st.stdout ++ ["Error copying file: " ++ err] }
  | none => { st with tree := dest :: st.tree }

/-- The barrier `wg.Wait()`: every copy in flight runs to its end. -/
def wgWait (w : World) (st : State) : State :=
  let st1 := st.inflight.foldl (fun s c => copyFile w s c.1 c.2) st
  { st1 with trace := st1.trace ++ [Event.wait], inflight := [] }

/-- The loop `for _, f := range files` of `Extract`, over the resolver's
result. -/
def loopDeps (w : World) (outDir : Path) : List FileInfo → State → Option Error × State
  | [], st => (none, st)
  | f :: fs, st =>
    let p := Dir f.FullName
    let destPath := Join [outDir, p]
    match w.MkdirAll destPath with
    | some err => (some err, { st with trace := st.trace ++ [Event.mkdir destPath (some err)] })
    | none =>
      loopDeps w outDir fs
        { st with
          trace := st.trace ++
            [Event.mkdir destPath none, Event.dispatch f.FullName (Join [destPath, f.Name])]
          tree := destPath :: st.tree
          inflight := st.inflight ++ [(f.FullName, Join [destPath, f.Name])] }

/-- The loop `for _, f := range config.files` of `Extract`, over the input
files. -/
def loopFiles (w : World) (outDir : Path) : List Path → State → Option Error × State
  | [], st => (none, st)
  | f :: fs, st =>
    let p := Dir f
    let destPath := Join [outDir, p]
    match w.MkdirAll destPath with
    | some err => (some err, { st with trace := st.trace ++ [Event.mkdir destPath (some err)] })
    | none =>
      loopFiles w outDir fs
        { st with
          trace := st.trace ++
            [Event.mkdir destPath none, Event.dispatch f (Join [destPath, Base f])]
          tree := destPath :: st.tree
          inflight := st.inflight ++ [(f, Join [destPath, Base f])] }

/-- The loop `for _, oo := range o` of `Extract`. -/
def applyOptions : List option → config → Except Error config
  | [], k => .ok k
  | oo :: os, k =>
    match oo k with
    | .error err => .error err
    | .ok k1 => applyOptions os k1

/-- Extract a binary and its deps into a folder: the returned error (`none`
for `nil`) and the state at the moment of the return. -/
def Extract (w : World) (st : State) (o : List option) : Option Error × State :=
  match applyOptions o { files := [], outDir := [] } with
  | .error err => (some err, st)
  | .ok config =>
    match w.Ldd config.files with
    | .error err => (some err, st)
    | .ok files =>
      match loopDeps w config.outDir files st with
      | (some err, st1) => (some err, st1)
      | (none, st1) =>
        match loopFiles w config.outDir config.files st1 with
        | (some err, st2) => (some err, st2)
        | (none, st2) => (none, wgWait w st2)

/-- The state before a run: nothing done yet, `tree` the paths that exist. -/
def State.start (tree : List Path) : State :=
  { trace := [], tree := tree, stdout := [], inflight := [] }

/-- The copies dispatched in a trace, in order. -/
def dispatched : List Event → List (Path × Path)
  | [] => []
  | Event.dispatch s d :: es => (s, d) :: dispatched es
  | _ :: es => dispatched es

/-- The directories whose creation succeeded in a trace, in order. -/
def created : List Event → List Path
  | [] => []
  | Event.mkdir d none :: es => d :: created es
  | _ :: es => created es

/-! ## Components of a path and the stack of `Clean` -/

/-- The elements of a path: the maximal slash-free runs, empty ones included
(`strings.Split(path, "/")`). -/
def elems : List Char → List (List Char)
  | [] => [[]]
  | c :: r =>
    if c = '/' then [] :: elems r
    else
      match elems r with
      | [] => [[c]]
      | e :: es => (c :: e) :: es

/-- The components of a path: its elements other than the empty one and `.`. -/
def components (p : Path) : List (List Char) :=
  (elems p).filter (fun t => decide (t ≠ [] ∧ t ≠ ['.']))

/-- An absolute path starts with a slash. -/
def isAbs (p : Path) : Bool := p.head? = some '/'

/-- Components joined by single slashes. -/
def joinSlash : List (List Char) → List Char
  | [] => []
  | [c] => c
  | c :: d :: cs => c ++ '/' :: joinSlash (d :: cs)

/-- The component `..`. -/
def dotdotElem : List Char := ['.', '.']

/-- A name: a component that `Clean` copies, i.e. a non-empty slash-free
element other than `.` and `..`. -/
def IsName (t : List Char) : Prop :=
  t ≠ [] ∧ '/' ∉ t ∧ t ≠ ['.'] ∧ t ≠ dotdotElem

/-- The state of the loop of `Clean`, read as components: `k` leading `..`
followed by the names `ns`. -/
structure Stack where
  k : Nat
  ns : List (List Char)

/-- One component processed by `Clean`. -/
def Stack.step (rooted : Bool) (st : Stack) (t : List Char) : Stack :=
  if t = dotdotElem then
    if st.ns ≠ [] then { st with ns := st.ns.dropLast }
    else if rooted = false then { st with k := st.k + 1 }
    else st
  else { st with ns := st.ns ++ [t] }

/-- All components of a path processed in order. -/
def Stack.run (rooted : Bool) (st : Stack) (ts : List (List Char)) : Stack :=
  ts.foldl (Stack.step rooted) st

/-- The output buffer holding a stack. -/
def Stack.buf (rooted : Bool) (st : Stack) : List Char :=
  if rooted then '/' :: joinSlash st.ns
  else joinSlash (List.replicate st.k dotdotElem ++ st.ns)

/-- The index `dotdot` for a stack. -/
def Stack.dd (rooted : Bool) (st : Stack) : Nat :=
  if rooted then 1 else (joinSlash (List.replicate st.k dotdotElem)).length

/-- The names of a stack are names, and a rooted stack has no leading `..`. -/
def Stack.Valid (rooted : Bool) (st : Stack) : Prop :=
  (∀ t ∈ st.ns, IsName t) ∧ (rooted = true → st.k = 0)

/-- The path a stack stands for: its buffer, `.` when that is empty. -/
def Stack.render (rooted : Bool) (st : Stack) : Path :=
  if st.buf rooted = [] then ['.'] else st.buf rooted

/-- A component as `components` returns them: non-empty, slash-free, not `.`. -/
def IsComp (t : List Char) : Prop := t ≠ [] ∧ '/' ∉ t ∧ t ≠ ['.']

/-- The leading slash of a rooted buffer. -/
def rootPrefix (rooted : Bool) : List Char := if rooted then ['/'] else []

/-- The stack before any component is read. -/
def Stack.empty : Stack := { k := 0, ns := [] }

/-- The stack `Clean` ends with on a path. -/
def normalize (p : Path) : Stack := Stack.empty.run (isAbs p) (components p)

/-- A clean absolute path: a fixed point of `Clean` that starts with a slash. -/
def IsCleanAbs (s : Path) : Prop := Clean s = s ∧ isAbs s = true

/-! ## Staying under the root -/

/-- The path `dest` lies inside `root`, lexically: both are absolute or both
relative, the components of `root` are a prefix of those of `dest`, and no
`..` follows that prefix. -/
def isUnder (root dest : Path) : Bool :=
  (isAbs root == isAbs dest) &&
    ((components root).isPrefixOf (components dest) &&
      !(((components dest).drop (components root).length).contains dotdotElem))

/-! ## The plan of a run -/

/-- One iteration of either loop of `Extract`: the directory to create, then
the copy to dispatch. -/
structure Item where
  dir : Path
  src : Path
  dest : Path
deriving DecidableEq, Repr

/-- The iteration of the first loop for a resolver entry. -/
def depItem (outDir : Path) (f : FileInfo) : Item :=
  { dir := Join [outDir, Dir f.FullName]
    src := f.FullName
    dest := Join [Join [outDir, Dir f.FullName], f.Name] }

/-- The iteration of the second loop for an input file. -/
def fileItem (outDir : Path) (f : Path) : Item :=
  { dir := Join [outDir, Dir f]
    src := f
    dest := Join [Join [outDir, Dir f], Base f] }

/-- The iterations of `Extract` in order: the resolver entries, then the
input files. -/
def extractPlan (c : config) (deps : List FileInfo) : List Item :=
  deps.map (depItem c.outDir) ++ c.files.map (fileItem c.outDir)

/-- The copy an iteration dispatches. -/
def Item.copy (x : Item) : Path × Path := (x.src, x.dest)

/-- The events of iterations that all succeed. -/
def planEvents : List Item → List Event
  | [] => []
  | x :: xs => Event.mkdir x.dir none :: Event.dispatch x.src x.dest :: planEvents xs

/-- The state after iterations that all succeed. -/
def stateAfter (st : State) (xs : List Item) : State :=
  { trace := st.trace ++ planEvents xs
    tree := (xs.map Item.dir).reverse ++ st.tree
    stdout := st.stdout
    inflight := st.inflight ++ xs.map Item.copy }

/-- A loop of `Extract` over a list of iterations. -/
def loopPlan (w : World) : List Item → State → Option Error × State
  | [], st => (none, st)
  | x :: xs, st =>
    match w.MkdirAll x.dir with
    | some err => (some err, { st with trace := st.trace ++ [Event.mkdir x.dir (some err)] })
    | none =>
      loopPlan w xs
        { st with
          trace := st.trace ++ [Event.mkdir x.dir none, Event.dispatch x.src x.dest]
          tree := x.dir :: st.tree
          inflight := st.inflight ++ [(x.src, x.dest)] }

/-- The line `copyFile` prints for a copy, if it fails. -/
def copyLine (w : World) (c : Path × Path) : Option String :=
  match w.Copy c.1 c.2 with
  | some err => some ("Error copying file: " ++ err)
  | none => none

/-- The copies in flight, run one after the other. -/
def copyAll (w : World) (cs : List (Path × Path)) (st : State) : State :=
  cs.foldl (fun s c => copyFile w s c.1 c.2) st

/-! ## Example inputs and worlds -/

instance (s : Path) : Decidable (IsCleanAbs s) := by
  unfold IsCleanAbs
  infer_instance

/-- The input binary of the examples. -/
def binApp : Path := "/bin/app".toList

/-- The library of the examples. -/
def libExample : Path := "/lib/libexample.so.1".toList

/-- The resolver entry of the library of the examples. -/
def libEntry : FileInfo := { FullName := libExample, Name := "libexample.so.1".toList }

/-- The output root of the examples. -/
def tmpOut : Path := "/tmp/out".toList

/-- A world in which everything succeeds: the binary needs one library. -/
def worldOk : World :=
  { Ldd := fun _ => .ok [libEntry]
    MkdirAll := fun _ => none
    Copy := fun _ _ => none }

/-- A world whose resolver fails. -/
def worldMissing : World :=
  { Ldd := fun _ => .error "libmissing.so: not found"
    MkdirAll := fun _ => none
    Copy := fun _ _ => none }

/-- A world in which every copy fails. -/
def worldCopyFails : World :=
  { Ldd := fun _ => .ok [libEntry]
    MkdirAll := fun _ => none
    Copy := fun _ _ => some "permission denied" }

/-- A world in which the copy of the library fails. -/
def worldLibCopyFails : World :=
  { Ldd := fun _ => .ok [libEntry]
    MkdirAll := fun _ => none
    Copy := fun src _ => if src = libExample then some "input/output error" else none }

/-- A world whose resolver lists the binary itself among its results. -/
def worldSelf : World :=
  { Ldd := fun _ => .ok [{ FullName := binApp, Name := "app".toList }, libEntry]
    MkdirAll := fun _ => none
    Copy := fun _ _ => none }

/-- A world in which the directory of the binary cannot be created. -/
def worldMkdirFails : World :=
  { Ldd := fun _ => .ok [libEntry]
    MkdirAll := fun d => if d = "/tmp/out/bin".toList then some "permission denied" else none
    Copy := fun _ _ => none }

/-- A world whose resolver finds no dependency. -/
def worldNoDeps : World :=
  { Ldd := fun _ => .ok []
    MkdirAll := fun _ => none
    Copy := fun _ _ => none }

/-- The directory or destination of an event lies under `root`. -/
def eventUnder (root : Path) : Event → Bool
  | Event.mkdir d _ => isUnder root d
  | Event.dispatch _ d => isUnder root d
  | Event.wait => true

/-! ## Path elements -/

theorem elems_ne_nil (l : List Char) : elems l ≠ [] := by
  cases l with
  | nil => simp [elems]
  | cons c r =>
    simp only [elems]
    split
    · simp
    · split <;> simp

theorem elems_append_slash (a b : List Char) :
    elems (a ++ '/' :: b) = elems a ++ elems b := by
  induction a with
  | nil => simp [elems]
  | cons c a ih =>
    simp only [List.cons_append, elems]
    by_cases hc : c = '/'
    · simp [hc, ih]
    · simp only [hc, if_false, List.append_eq]
      cases h : elems a with
      | nil => exact absurd h (elems_ne_nil a)
      | cons e es => rw [ih, h]; simp

theorem elems_of_no_slash (t : List Char) (h : '/' ∉ t) : elems t = [t] := by
  induction t with
  | nil => simp [elems]
  | cons c t ih =>
    have hc : c ≠ '/' := fun e => h (by simp [e])
    have ht : '/' ∉ t := fun e => h (by simp [e])
    simp [elems, hc, ih ht]

theorem components_append_slash (a b : List Char) :
    components (a ++ '/' :: b) = components a ++ components b := by
  simp [components, elems_append_slash]

theorem components_nil : components [] = [] := by
  simp [components, elems]

theorem components_slash_cons (b : List Char) : components ('/' :: b) = components b := by
  have := components_append_slash [] b
  simpa [components_nil] using this

theorem components_append_single_slash (a : List Char) :
    components (a ++ ['/']) = components a := by
  have := components_append_slash a []
  simpa [components_nil] using this

theorem components_of_no_slash (t : List Char) (h : '/' ∉ t) :
    components t = if t ≠ [] ∧ t ≠ ['.'] then [t] else [] := by
  simp only [components, elems_of_no_slash t h, List.filter_cons, List.filter_nil]
  by_cases h1 : t ≠ [] ∧ t ≠ ['.'] <;> simp [h1]

theorem components_name (t : List Char) (h : IsName t) : components t = [t] := by
  rw [components_of_no_slash t h.2.1]
  simp [h.1, h.2.2.1]

theorem takeWhile_no_slash (l : List Char) : '/' ∉ l.takeWhile (fun x => x ≠ '/') := by
  intro h
  have := List.mem_takeWhile_imp h
  simp at this

theorem dropWhile_slash_head (l : List Char) :
    l.dropWhile (fun x => x ≠ '/') = [] ∨
      ∃ r, l.dropWhile (fun x => x ≠ '/') = '/' :: r := by
  induction l with
  | nil => simp
  | cons c l ih =>
    by_cases hc : c = '/'
    · right; exact ⟨l, by simp [hc]⟩
    · simpa [List.dropWhile_cons, hc] using ih

/-- The components of a path are those of its first element followed by those
of the rest. -/
theorem components_span (l : List Char) :
    components l = components (l.takeWhile (fun x => x ≠ '/')) ++
      components (l.dropWhile (fun x => x ≠ '/')) := by
  rcases dropWhile_slash_head l with h | ⟨r, h⟩
  · have : l.takeWhile (fun x => x ≠ '/') = l := by
      have := List.takeWhile_append_dropWhile (fun x => decide (x ≠ '/')) l
      rw [h] at this; simpa using this
    rw [h, this, components_nil]; simp
  · have hl : l = l.takeWhile (fun x => x ≠ '/') ++ '/' :: r := by
      have := List.takeWhile_append_dropWhile (fun x => decide (x ≠ '/')) l
      rw [h] at this; exact this.symm
    rw [h, components_slash_cons]
    conv_lhs => rw [hl]
    rw [components_append_slash]

theorem IsName.isComp {t : List Char} (h : IsName t) : IsComp t := ⟨h.1, h.2.1, h.2.2.1⟩

theorem isComp_dotdot : IsComp dotdotElem := by
  simp [IsComp, dotdotElem]

theorem joinSlash_append (a b : List (List Char)) (ha : a ≠ []) (hb : b ≠ []) :
    joinSlash (a ++ b) = joinSlash a ++ '/' :: joinSlash b := by
  induction a with
  | nil => exact absurd rfl ha
  | cons c a ih =>
    cases a with
    | nil =>
      cases b with
      | nil => exact absurd rfl hb
      | cons d b => simp [joinSlash]
    | cons d a =>
      have := ih (by simp)
      simp only [List.cons_append] at this ⊢
      simp [joinSlash, this]

theorem joinSlash_eq_nil (cs : List (List Char)) (h : ∀ c ∈ cs, c ≠ []) :
    joinSlash cs = [] ↔ cs = [] := by
  cases cs with
  | nil => simp [joinSlash]
  | cons c cs =>
    have hc : c ≠ [] := h c (by simp)
    cases cs with
    | nil => simp [joinSlash, hc]
    | cons d cs => simp [joinSlash, hc]

theorem components_joinSlash (cs : List (List Char)) (h : ∀ c ∈ cs, IsComp c) :
    components (joinSlash cs) = cs := by
  induction cs with
  | nil => simp [joinSlash, components_nil]
  | cons c cs ih =>
    have hc : IsComp c := h c (by simp)
    have h1 : components c = [c] := by
      rw [components_of_no_slash c hc.2.1]; simp [hc.1, hc.2.2]
    cases cs with
    | nil => simpa [joinSlash] using h1
    | cons d cs =>
      have := ih (fun x hx => h x (by simp [hx]))
      simp only [joinSlash] at this ⊢
      rw [components_append_slash, h1, this]; rfl

theorem joinSlash_head_ne_slash (cs : List (List Char)) (h : ∀ c ∈ cs, IsComp c) :
    (joinSlash cs).head? ≠ some '/' := by
  cases cs with
  | nil => simp [joinSlash]
  | cons c cs =>
    have hc : IsComp c := h c (by simp)
    have hh : c.head? ≠ some '/' := by
      cases c with
      | nil => simp
      | cons x c =>
        have : x ≠ '/' := fun e => hc.2.1 (by simp [e])
        simpa using this
    cases cs with
    | nil => simpa [joinSlash] using hh
    | cons d cs =>
      cases c with
      | nil => exact absurd rfl hc.1
      | cons x c => simpa [joinSlash] using hh

/-! ## The buffer operations of `Clean` on a stack -/

theorem backLoop_stop (buf : List Char) (dd w : Nat)
    (h : ¬(w > dd ∧ buf.getD w '/' ≠ '/')) : backLoop buf dd w = w := by
  cases w with
  | zero => simp [backLoop]
  | succ n => rw [backLoop, if_neg h]

theorem backLoop_succ (buf : List Char) (dd w : Nat)
    (h : w + 1 > dd ∧ buf.getD (w + 1) '/' ≠ '/') :
    backLoop buf dd (w + 1) = backLoop buf dd w := by
  rw [backLoop, if_pos h]

theorem getD_append_add (X c : List Char) (j : Nat) :
    (X ++ c).getD (X.length + j) '/' = c.getD j '/' := by
  rw [List.getD_append_right _ _ _ _ (by omega)]
  simp

theorem getD_no_slash (c : List Char) (hc : '/' ∉ c) (j : Nat) (hj : j < c.length) :
    c.getD j '/' ≠ '/' := by
  rw [List.getD_eq_getElem _ _ hj]
  intro e
  exact hc (e ▸ List.getElem_mem hj)

theorem backLoop_stop_at_slash (Y c : List Char) (dd : Nat) (hc : '/' ∉ c)
    (hdd : dd ≤ Y.length) (j : Nat) (hj : j ≤ c.length) :
    backLoop (Y ++ '/' :: c) dd (Y.length + j) = Y.length := by
  induction j with
  | zero =>
    apply backLoop_stop
    rw [getD_append_add]
    simp
  | succ j ih =>
    have hget : (Y ++ '/' :: c).getD (Y.length + j + 1) '/' ≠ '/' := by
      have h1 := getD_append_add Y ('/' :: c) (j + 1)
      rw [Nat.add_assoc, h1]
      simpa using getD_no_slash c hc j hj
    have : Y.length + (j + 1) = (Y.length + j) + 1 := by omega
    rw [this, backLoop_succ _ _ _ ⟨by omega, hget⟩]
    exact ih (by omega)

theorem backLoop_stop_at_dotdot (X c : List Char) (hc : '/' ∉ c) (j : Nat)
    (hj : j < c.length) :
    backLoop (X ++ c) X.length (X.length + j) = X.length := by
  induction j with
  | zero =>
    apply backLoop_stop
    simp
  | succ j ih =>
    have hget : (X ++ c).getD (X.length + j + 1) '/' ≠ '/' := by
      have h1 := getD_append_add X c (j + 1)
      rw [Nat.add_assoc, h1]
      exact getD_no_slash c hc (j + 1) hj
    have : X.length + (j + 1) = (X.length + j) + 1 := by omega
    rw [this, backLoop_succ _ _ _ ⟨by omega, hget⟩]
    exact ih (by omega)

theorem Stack.buf_eq (rooted : Bool) (st : Stack) (hv : st.Valid rooted) :
    st.buf rooted = rootPrefix rooted ++ joinSlash (List.replicate st.k dotdotElem ++ st.ns) := by
  cases rooted with
  | false => simp [Stack.buf, rootPrefix]
  | true => simp [Stack.buf, rootPrefix, hv.2 rfl]

theorem Stack.dd_eq (rooted : Bool) (st : Stack) (hv : st.Valid rooted) :
    st.dd rooted = (rootPrefix rooted ++ joinSlash (List.replicate st.k dotdotElem)).length := by
  cases rooted with
  | false => simp [Stack.dd, rootPrefix]
  | true => simp [Stack.dd, rootPrefix, hv.2 rfl, joinSlash]

theorem Stack.comps_isComp (rooted : Bool) (st : Stack) (hv : st.Valid rooted) :
    ∀ t ∈ List.replicate st.k dotdotElem ++ st.ns, IsComp t := by
  intro t ht
  rcases List.mem_append.1 ht with h | h
  · rw [(List.mem_replicate.1 h).2]; exact isComp_dotdot
  · exact (hv.1 t h).isComp

theorem joinSlash_length_le (a b : List (List Char)) :
    (joinSlash a).length ≤ (joinSlash (a ++ b)).length := by
  by_cases ha : a = []
  · simp [ha, joinSlash]
  · by_cases hb : b = []
    · simp [hb]
    · rw [joinSlash_append a b ha hb]
      simp only [List.length_append, List.length_cons]
      omega

theorem pop_at_slash (Y c : List Char) (dd : Nat) (hc : '/' ∉ c)
    (hdd : dd ≤ Y.length) :
    (Y ++ '/' :: c).take (backLoop (Y ++ '/' :: c) dd ((Y ++ '/' :: c).length - 1)) = Y := by
  have hl : (Y ++ '/' :: c).length - 1 = Y.length + c.length := by simp
  rw [hl, backLoop_stop_at_slash Y c dd hc hdd c.length (le_refl _)]
  simp

theorem pop_at_dotdot (X c : List Char) (hc0 : c ≠ []) (hc : '/' ∉ c) :
    (X ++ c).take (backLoop (X ++ c) X.length ((X ++ c).length - 1)) = X := by
  have hpos : 0 < c.length := List.length_pos.2 hc0
  have hl : (X ++ c).length - 1 = X.length + (c.length - 1) := by simp; omega
  rw [hl, backLoop_stop_at_dotdot X c hc (c.length - 1) (by omega)]
  simp

theorem Stack.pop_buf (rooted : Bool) (st : Stack) (hv : st.Valid rooted)
    (ns1 : List (List Char)) (c : List Char) (h : st.ns = ns1 ++ [c]) :
    (st.buf rooted).length > st.dd rooted ∧
      (st.buf rooted).take
        (backLoop (st.buf rooted) (st.dd rooted) ((st.buf rooted).length - 1)) =
        Stack.buf rooted { st with ns := ns1 } := by
  have hc : IsName c := hv.1 c (by simp [h])
  have hv1 : Stack.Valid rooted { st with ns := ns1 } :=
    ⟨fun t ht => hv.1 t (by simp [h, ht]), hv.2⟩
  rw [Stack.buf_eq rooted st hv, Stack.dd_eq rooted st hv, Stack.buf_eq rooted _ hv1, h]
  simp only
  have hcl : 0 < c.length := List.length_pos.2 hc.1
  by_cases he : List.replicate st.k dotdotElem ++ ns1 = []
  · have hk : List.replicate st.k dotdotElem = [] := (List.append_eq_nil.1 he).1
    have hn : ns1 = [] := (List.append_eq_nil.1 he).2
    subst hn
    simp only [hk, List.nil_append, joinSlash, List.append_nil]
    refine ⟨by simp; omega, ?_⟩
    exact pop_at_dotdot (rootPrefix rooted) c hc.1 hc.2.1
  · have e1 : joinSlash (List.replicate st.k dotdotElem ++ (ns1 ++ [c])) =
        joinSlash (List.replicate st.k dotdotElem ++ ns1) ++ '/' :: c := by
      rw [← List.append_assoc, joinSlash_append _ _ he (by simp)]
      simp [joinSlash]
    have hle := joinSlash_length_le (List.replicate st.k dotdotElem) ns1
    rw [e1, ← List.append_assoc]
    refine ⟨by simp; omega, ?_⟩
    exact pop_at_slash _ c _ hc.2.1 (by simp; omega)

theorem Stack.empty_len (rooted : Bool) (st : Stack) (hv : st.Valid rooted) (h : st.ns = []) :
    ¬ (st.buf rooted).length > st.dd rooted := by
  rw [Stack.buf_eq rooted st hv, Stack.dd_eq rooted st hv, h]
  simp

theorem Stack.dots_buf (st : Stack) (h : st.ns = []) :
    (if (st.buf false).length > 0 then st.buf false ++ ['/'] else st.buf false) ++ ['.', '.'] =
      Stack.buf false { st with k := st.k + 1 } ∧
    Stack.dd false { st with k := st.k + 1 } = (Stack.buf false { st with k := st.k + 1 }).length := by
  simp only [Stack.buf, Stack.dd, h, List.append_nil, Bool.false_eq_true, if_false]
  refine ⟨?_, trivial⟩
  rw [List.replicate_succ']
  by_cases hk : st.k = 0
  · simp [hk, joinSlash, dotdotElem]
  · have hne : List.replicate st.k dotdotElem ≠ [] := by
      simp [hk]
    have hlen : (joinSlash (List.replicate st.k dotdotElem)).length > 0 := by
      apply List.length_pos.2
      intro e
      exact hne ((joinSlash_eq_nil _ (fun c hc => by
        rw [(List.mem_replicate.1 hc).2]; simp [dotdotElem])).1 e)
    rw [if_pos hlen, joinSlash_append _ _ hne (by simp)]
    simp [joinSlash, dotdotElem]

theorem Stack.push_buf (rooted : Bool) (st : Stack) (hv : st.Valid rooted)
    (t : List Char) :
    (if (rooted = true ∧ (st.buf rooted).length ≠ 1) ∨
          (rooted = false ∧ (st.buf rooted).length ≠ 0) then
        st.buf rooted ++ ['/']
      else st.buf rooted) ++ t =
      Stack.buf rooted { st with ns := st.ns ++ [t] } := by
  have hne := joinSlash_eq_nil _ (fun c hc => (Stack.comps_isComp rooted st hv c hc).1)
  by_cases he : List.replicate st.k dotdotElem ++ st.ns = []
  · have hn : st.ns = [] := (List.append_eq_nil.1 he).2
    have hk : List.replicate st.k dotdotElem = [] := (List.append_eq_nil.1 he).1
    cases rooted with
    | false => simp [Stack.buf, hn, hk, joinSlash]
    | true => simp [Stack.buf, hn, joinSlash]
  · have hj : joinSlash (List.replicate st.k dotdotElem ++ st.ns) ≠ [] := fun e => he (hne.1 e)
    have hl : 0 < (joinSlash (List.replicate st.k dotdotElem ++ st.ns)).length :=
      List.length_pos.2 hj
    cases rooted with
    | false =>
      have hb : st.buf false = joinSlash (List.replicate st.k dotdotElem ++ st.ns) := by
        simp [Stack.buf]
      have hb2 : Stack.buf false { st with ns := st.ns ++ [t] } =
          joinSlash (List.replicate st.k dotdotElem ++ st.ns) ++ '/' :: t := by
        simp only [Stack.buf, Bool.false_eq_true, if_false]
        rw [← List.append_assoc, joinSlash_append _ _ he (by simp)]
        simp [joinSlash]
      rw [hb2, hb]
      simp [hj]
    | true =>
      have hk := hv.2 rfl
      have hns : st.ns ≠ [] := by simpa [hk] using he
      have hjn : joinSlash st.ns ≠ [] := by simpa [hk] using hj
      have hb : st.buf true = '/' :: joinSlash st.ns := by
        simp [Stack.buf]
      have hb2 : Stack.buf true { st with ns := st.ns ++ [t] } =
          '/' :: (joinSlash st.ns ++ '/' :: t) := by
        simp only [Stack.buf, if_true]
        rw [joinSlash_append _ _ hns (by simp)]
        simp [joinSlash]
      rw [hb2, hb]
      simp [hjn]

/-! ## `Clean` computes on components -/

theorem elemEnd_spec (l : List Char) (h : elemEnd l = true) :
    l.takeWhile (fun x => x ≠ '/') = [] ∧ l.dropWhile (fun x => x ≠ '/') = l := by
  cases l with
  | nil => simp
  | cons c l =>
    have hc : c = '/' := by simpa [elemEnd] using h
    simp [hc]

theorem elemEnd_of_takeWhile (l : List Char) (h : l.takeWhile (fun x => x ≠ '/') = []) :
    elemEnd l = true := by
  cases l with
  | nil => rfl
  | cons c l =>
    by_cases hc : c = '/'
    · simp [elemEnd, hc]
    · simp [List.takeWhile_cons, hc] at h

theorem elems_no_slash (l : List Char) : ∀ e ∈ elems l, '/' ∉ e := by
  induction l with
  | nil => simp [elems]
  | cons c l ih =>
    intro e he
    simp only [elems] at he
    by_cases hc : c = '/'
    · simp only [hc, if_true, List.mem_cons] at he
      rcases he with he | he
      · simp [he]
      · exact ih e he
    · simp only [hc, if_false] at he
      cases h : elems l with
      | nil => exact absurd h (elems_ne_nil l)
      | cons x xs =>
        rw [h] at he ih
        simp only [List.mem_cons] at he
        rcases he with he | he
        · have hx := ih x (by simp)
          rw [he]
          intro hm
          rcases List.mem_cons.1 hm with h1 | h1
          · exact hc h1.symm
          · exact hx h1
        · exact ih e (by simp [he])

theorem components_isComp (p : Path) : ∀ t ∈ components p, IsComp t := by
  intro t ht
  simp only [components, List.mem_filter, decide_eq_true_eq] at ht
  exact ⟨ht.2.1, elems_no_slash p t ht.1, ht.2.2⟩

theorem IsComp.name_or_dotdot {t : List Char} (h : IsComp t) : t = dotdotElem ∨ IsName t := by
  by_cases hd : t = dotdotElem
  · exact Or.inl hd
  · exact Or.inr ⟨h.1, h.2.1, h.2.2, hd⟩

theorem Stack.step_valid (rooted : Bool) (st : Stack) (hv : st.Valid rooted) (t : List Char)
    (ht : IsComp t) : (st.step rooted t).Valid rooted := by
  unfold Stack.step
  by_cases hd : t = dotdotElem
  · rw [if_pos hd]
    by_cases hn : st.ns ≠ []
    · rw [if_pos hn]
      exact ⟨fun x hx => hv.1 x (List.dropLast_subset _ hx), hv.2⟩
    · rw [if_neg hn]
      cases rooted with
      | false => exact ⟨hv.1, by simp⟩
      | true => simpa using hv
  · rw [if_neg hd]
    refine ⟨fun x hx => ?_, hv.2⟩
    rcases List.mem_append.1 hx with h | h
    · exact hv.1 x h
    · rw [List.mem_singleton.1 h]; exact ⟨ht.1, ht.2.1, ht.2.2, hd⟩

theorem Stack.run_valid (rooted : Bool) (ts : List (List Char)) :
    ∀ (st : Stack), st.Valid rooted → (∀ t ∈ ts, IsComp t) → (st.run rooted ts).Valid rooted := by
  induction ts with
  | nil => intro st hv _; exact hv
  | cons t ts ih =>
    intro st hv h
    exact ih _ (Stack.step_valid rooted st hv t (h t (by simp))) (fun x hx => h x (by simp [hx]))

theorem cleanLoop_eq (rooted : Bool) :
    ∀ (fuel : Nat) (r : List Char) (st : Stack), st.Valid rooted → r.length ≤ fuel →
      cleanLoop rooted fuel r (st.buf rooted) (st.dd rooted) =
        (st.run rooted (components r)).buf rooted := by
  intro fuel
  induction fuel with
  | zero =>
    intro r st _ hl
    have hr : r = [] := by
      cases r with
      | nil => rfl
      | cons c r => simp at hl
    subst hr
    simp [cleanLoop, components_nil, Stack.run]
  | succ fuel ih =>
    intro r st hv hl
    cases r with
    | nil => simp [cleanLoop, components_nil, Stack.run]
    | cons c rest =>
      have hrl : rest.length ≤ fuel := by simpa using hl
      rw [cleanLoop]
      by_cases hc : c = '/'
      · rw [if_pos hc, hc, components_slash_cons]
        exact ih rest st hv hrl
      · rw [if_neg hc]
        have hspan := components_span (c :: rest)
        have htw : (c :: rest).takeWhile (fun x => x ≠ '/') =
            c :: rest.takeWhile (fun x => x ≠ '/') := by
          simp [List.takeWhile_cons, hc]
        have hdw : (c :: rest).dropWhile (fun x => x ≠ '/') =
            rest.dropWhile (fun x => x ≠ '/') := by
          simp [List.dropWhile_cons, hc]
        have hdl : (rest.dropWhile (fun x => x ≠ '/')).length ≤ fuel :=
          le_trans (List.Sublist.length_le (List.dropWhile_sublist _)) hrl
        by_cases h2 : c = '.' ∧ elemEnd rest = true
        · rw [if_pos h2]
          obtain ⟨e1, e2⟩ := elemEnd_spec rest h2.2
          have hcomp : components (c :: rest) = components rest := by
            rw [hspan, htw, hdw, e1, e2, h2.1]
            simp [components, elems]
          rw [hcomp]
          exact ih rest st hv hrl
        · rw [if_neg h2]
          by_cases h3 : c = '.' ∧ rest.head? = some '.' ∧ elemEnd rest.tail = true
          · rw [if_pos h3]
            obtain ⟨r2, hr⟩ : ∃ r2, rest = '.' :: r2 := by
              cases rest with
              | nil => simp at h3
              | cons x r2 => exact ⟨r2, by simpa using h3.2.1⟩
            subst hr
            simp only [List.tail_cons] at h3 ⊢
            have hr2 : r2.length ≤ fuel := by simp at hrl; omega
            obtain ⟨e1, e2⟩ := elemEnd_spec r2 h3.2.2
            have hcomp : components (c :: '.' :: r2) = dotdotElem :: components r2 := by
              rw [hspan, htw, hdw, h3.1]
              simp only [List.takeWhile_cons, List.dropWhile_cons, e1, e2]
              simp [components, elems, dotdotElem]
            rw [hcomp]
            simp only [Stack.run, List.foldl_cons]
            have hv1 := Stack.step_valid rooted st hv dotdotElem isComp_dotdot
            rcases List.eq_nil_or_concat st.ns with hn | ⟨ns1, c1, hn⟩
            · rw [if_neg (Stack.empty_len rooted st hv hn)]
              cases rooted with
              | false =>
                obtain ⟨b1, b2⟩ := Stack.dots_buf st hn
                have hstep : Stack.step false st dotdotElem = { st with k := st.k + 1 } := by
                  simp [Stack.step, hn]
                simp only [if_true]
                rw [b1, ← b2, ← hstep]
                exact ih r2 _ hv1 hr2
              | true =>
                have hstep : Stack.step true st dotdotElem = st := by
                  simp [Stack.step, hn]
                simp only [Bool.true_eq_false, if_false]
                rw [hstep]
                exact ih r2 st hv hr2
            · rw [List.concat_eq_append] at hn
              obtain ⟨p1, p2⟩ := Stack.pop_buf rooted st hv ns1 c1 hn
              have hstep : Stack.step rooted st dotdotElem = { st with ns := ns1 } := by
                simp [Stack.step, hn]
              rw [if_pos p1, p2]
              have hdd : st.dd rooted = Stack.dd rooted { st with ns := ns1 } := by
                simp [Stack.dd]
              rw [hdd, ← hstep]
              exact ih r2 _ hv1 hr2
          · rw [if_neg h3]
            have hname : IsName (c :: rest.takeWhile (fun x => x ≠ '/')) := by
              refine ⟨by simp, ?_, ?_, ?_⟩
              · rw [← htw]; exact takeWhile_no_slash _
              · intro e
                simp only [List.cons.injEq] at e
                exact h2 ⟨e.1, elemEnd_of_takeWhile rest e.2⟩
              · intro e
                simp only [dotdotElem, List.cons.injEq] at e
                apply h3
                cases rest with
                | nil => simp at e
                | cons x r2 =>
                  by_cases hx : x = '/'
                  · simp [List.takeWhile_cons, hx] at e
                  · simp only [List.takeWhile_cons, hx, ne_eq, not_false_eq_true,
                      decide_True, if_true, List.cons.injEq] at e
                    exact ⟨e.1, by simp [e.2.1], by
                      simpa using elemEnd_of_takeWhile r2 e.2.2⟩
            have hcomp : components (c :: rest) =
                (c :: rest.takeWhile (fun x => x ≠ '/')) ::
                  components (rest.dropWhile (fun x => x ≠ '/')) := by
              rw [hspan, htw, hdw, components_name _ hname]; rfl
            have hstep : Stack.step rooted st (c :: rest.takeWhile (fun x => x ≠ '/')) =
                { st with ns := st.ns ++ [c :: rest.takeWhile (fun x => x ≠ '/')] } := by
              unfold Stack.step
              rw [if_neg hname.2.2.2]
            have hv1 := Stack.step_valid rooted st hv _ hname.isComp
            rw [hcomp]
            simp only [Stack.run, List.foldl_cons]
            rw [htw, hdw, Stack.push_buf rooted st hv]
            have hdd : st.dd rooted = Stack.dd rooted
                { st with ns := st.ns ++ [c :: rest.takeWhile (fun x => x ≠ '/')] } := by
              simp [Stack.dd]
            rw [hdd, ← hstep]
            exact ih _ _ hv1 hdl

theorem Stack.empty_valid (rooted : Bool) : Stack.empty.Valid rooted := by
  simp [Stack.Valid, Stack.empty]

theorem normalize_valid (p : Path) : (normalize p).Valid (isAbs p) :=
  Stack.run_valid _ _ _ (Stack.empty_valid _) (components_isComp p)

/-- The function `Clean` is the rendering of the normalized components of the path. -/
theorem Clean_eq_render (p : Path) : Clean p = (normalize p).render (isAbs p) := by
  cases p with
  | nil =>
    simp [Clean, normalize, isAbs, components_nil, Stack.run, Stack.render, Stack.buf,
      Stack.empty, joinSlash]
  | cons c r =>
    by_cases hc : c = '/'
    · subst hc
      have h := cleanLoop_eq true ('/' :: r).length r Stack.empty (Stack.empty_valid true)
        (by simp)
      have hb : Stack.buf true Stack.empty = ['/'] := by simp [Stack.buf, Stack.empty, joinSlash]
      have hd : Stack.dd true Stack.empty = 1 := by simp [Stack.dd]
      rw [hb, hd] at h
      simp only [Clean, normalize, isAbs, List.head?_cons, decide_True, if_true,
        List.tail_cons, Stack.render, components_slash_cons, h]
      simp
    · have h := cleanLoop_eq false (c :: r).length (c :: r) Stack.empty (Stack.empty_valid false)
        (le_refl _)
      have hb : Stack.buf false Stack.empty = [] := by simp [Stack.buf, Stack.empty, joinSlash]
      have hd : Stack.dd false Stack.empty = 0 := by
        simp [Stack.dd, Stack.empty, joinSlash]
      rw [hb, hd] at h
      have ha : isAbs (c :: r) = false := by simp [isAbs, hc]
      simp only [Clean, normalize, ha, Stack.render]
      simp only [List.length_cons] at h
      simp [hc, h]

theorem Stack.render_ne_nil (rooted : Bool) (st : Stack) : st.render rooted ≠ [] := by
  unfold Stack.render
  split <;> simp [*]

theorem Clean_ne_nil (p : Path) : Clean p ≠ [] := by
  rw [Clean_eq_render]; exact Stack.render_ne_nil _ _

theorem Stack.components_render (rooted : Bool) (st : Stack) (hv : st.Valid rooted) :
    components (st.render rooted) = List.replicate st.k dotdotElem ++ st.ns := by
  have hc := Stack.comps_isComp rooted st hv
  unfold Stack.render
  rw [Stack.buf_eq rooted st hv]
  cases rooted with
  | true =>
    simp only [rootPrefix, if_true, List.singleton_append]
    rw [if_neg (by simp), components_slash_cons, components_joinSlash _ hc]
  | false =>
    simp only [rootPrefix, Bool.false_eq_true, if_false, List.nil_append]
    by_cases he : joinSlash (List.replicate st.k dotdotElem ++ st.ns) = []
    · rw [if_pos he, (joinSlash_eq_nil _ (fun c h => (hc c h).1)).1 he]
      simp [components, elems]
    · rw [if_neg he, components_joinSlash _ hc]

theorem Stack.isAbs_render (rooted : Bool) (st : Stack) (hv : st.Valid rooted) :
    isAbs (st.render rooted) = rooted := by
  have hc := Stack.comps_isComp rooted st hv
  unfold Stack.render
  rw [Stack.buf_eq rooted st hv]
  cases rooted with
  | true => simp [rootPrefix, isAbs]
  | false =>
    simp only [rootPrefix, Bool.false_eq_true, if_false, List.nil_append]
    split
    · simp [isAbs]
    · simpa [isAbs] using joinSlash_head_ne_slash _ hc

theorem isAbs_Clean (p : Path) : isAbs (Clean p) = isAbs p := by
  rw [Clean_eq_render]; exact Stack.isAbs_render _ _ (normalize_valid p)

theorem Stack.run_append (rooted : Bool) (st : Stack) (a b : List (List Char)) :
    st.run rooted (a ++ b) = (st.run rooted a).run rooted b := by
  simp [Stack.run, List.foldl_append]

theorem Stack.run_names (rooted : Bool) (ns : List (List Char)) :
    ∀ (st : Stack), (∀ t ∈ ns, IsName t) →
      st.run rooted ns = { st with ns := st.ns ++ ns } := by
  induction ns with
  | nil => intro st _; simp [Stack.run]
  | cons t ns ih =>
    intro st h
    have ht : t ≠ dotdotElem := (h t (by simp)).2.2.2
    have hs : st.step rooted t = { st with ns := st.ns ++ [t] } := by
      unfold Stack.step; rw [if_neg ht]
    have := ih (st.step rooted t) (fun x hx => h x (by simp [hx]))
    simp only [Stack.run, List.foldl_cons] at this ⊢
    rw [this, hs]
    simp

theorem Stack.run_dots (k : Nat) :
    ∀ (j : Nat), Stack.run false { k := j, ns := [] } (List.replicate k dotdotElem) =
      { k := j + k, ns := [] } := by
  induction k with
  | zero => intro j; simp [Stack.run]
  | succ k ih =>
    intro j
    have := ih (j + 1)
    simp only [Stack.run, List.replicate_succ, List.foldl_cons] at this ⊢
    have hs : Stack.step false { k := j, ns := [] } dotdotElem = { k := j + 1, ns := [] } := by
      simp [Stack.step]
    rw [hs, this]
    congr 1
    omega

/-- Reading back the components of a valid stack rebuilds the stack. -/
theorem Stack.run_components (rooted : Bool) (st : Stack) (hv : st.Valid rooted) :
    Stack.empty.run rooted (List.replicate st.k dotdotElem ++ st.ns) = st := by
  rw [Stack.run_append]
  cases rooted with
  | true =>
    have hk := hv.2 rfl
    rw [hk]
    simp only [List.replicate_zero, Stack.run, List.foldl_nil]
    have := Stack.run_names true st.ns Stack.empty hv.1
    simp only [Stack.run] at this
    rw [this]
    cases st
    simp_all [Stack.empty]
  | false =>
    have h1 := Stack.run_dots st.k 0
    have : Stack.empty = { k := 0, ns := [] } := rfl
    rw [this, h1, Stack.run_names false st.ns _ hv.1]
    cases st
    simp

theorem normalize_render (rooted : Bool) (st : Stack) (hv : st.Valid rooted) :
    normalize (st.render rooted) = st := by
  unfold normalize
  rw [Stack.isAbs_render rooted st hv, Stack.components_render rooted st hv,
    Stack.run_components rooted st hv]

theorem normalize_Clean (p : Path) : normalize (Clean p) = normalize p := by
  rw [Clean_eq_render, normalize_render _ _ (normalize_valid p)]

theorem isAbs_append (x y : Path) (hx : x ≠ []) : isAbs (x ++ y) = isAbs x := by
  cases x with
  | nil => exact absurd rfl hx
  | cons c x => simp [isAbs]

/-- The normal form of `x/y`, from the normal form of `x`. -/
theorem normalize_append_slash (x y : Path) (hx : x ≠ []) :
    normalize (x ++ '/' :: y) = (normalize x).run (isAbs x) (components y) := by
  unfold normalize
  rw [isAbs_append x _ hx, components_append_slash, Stack.run_append]

/-- Cleaning the left part of a joined path first changes nothing. -/
theorem Clean_append_slash (x y : Path) (hx : x ≠ []) :
    Clean (Clean x ++ '/' :: y) = Clean (x ++ '/' :: y) := by
  rw [Clean_eq_render (Clean x ++ '/' :: y), Clean_eq_render (x ++ '/' :: y),
    normalize_append_slash _ _ (Clean_ne_nil x), normalize_append_slash _ _ hx,
    normalize_Clean, isAbs_append _ _ (Clean_ne_nil x), isAbs_append _ _ hx, isAbs_Clean]

/-! ## `Dir`, `Base`, `Join` and `mapPath` on components -/

theorem Clean_congr (x y : Path) (ha : isAbs x = isAbs y) (hc : components x = components y) :
    Clean x = Clean y := by
  rw [Clean_eq_render x, Clean_eq_render y]
  unfold normalize
  rw [ha, hc]

theorem components_Clean (p : Path) :
    components (Clean p) = List.replicate (normalize p).k dotdotElem ++ (normalize p).ns := by
  rw [Clean_eq_render, Stack.components_render _ _ (normalize_valid p)]

theorem normalize_of_names (p : Path) (h : ∀ t ∈ components p, IsName t) :
    normalize p = { k := 0, ns := components p } := by
  unfold normalize
  rw [Stack.run_names _ _ _ h]
  simp [Stack.empty]

theorem components_Clean_of_names (p : Path) (h : ∀ t ∈ components p, IsName t) :
    components (Clean p) = components p := by
  rw [components_Clean, normalize_of_names p h]
  simp

theorem Join_pair (a b : Path) (ha : a ≠ []) : Join [a, b] = Clean (a ++ '/' :: b) := by
  simp [Join, List.dropWhile_cons, ha, List.intercalate, List.intersperse]

theorem Join_nil_left (b : Path) (hb : b ≠ []) : Join [[], b] = Clean b := by
  simp [Join, List.dropWhile_cons, hb, List.intercalate, List.intersperse]

theorem Dir_ne_nil (s : Path) : Dir s ≠ [] := Clean_ne_nil _

/-- With a non-empty root the mapped path is the cleaned concatenation of the
root, the directory and the base name. -/
theorem mapPath_eq (root s : Path) (hr : root ≠ []) :
    mapPath root s = Clean (root ++ '/' :: (Dir s ++ '/' :: Base s)) := by
  unfold mapPath
  rw [Join_pair root _ hr, Join_pair _ _ (Clean_ne_nil _), Clean_append_slash _ _ (by simp [hr])]
  simp

theorem mapPath_nil (s : Path) : mapPath [] s = Clean (Dir s ++ '/' :: Base s) := by
  unfold mapPath
  rw [Join_nil_left _ (Dir_ne_nil s), Join_pair _ _ (Clean_ne_nil _),
    Clean_append_slash _ _ (Dir_ne_nil s)]

theorem dropWhile_append_stop (p : Char → Bool) (a : List Char) (x : Char) (r : List Char)
    (ha : ∀ y ∈ a, p y = true) (hx : p x = false) :
    (a ++ x :: r).dropWhile p = x :: r := by
  induction a with
  | nil => simp [List.dropWhile_cons, hx]
  | cons y a ih =>
    have hy : p y = true := ha y (by simp)
    simp only [List.cons_append, List.dropWhile_cons, hy, if_true]
    exact ih (fun z hz => ha z (by simp [hz]))

theorem takeWhile_append_stop (p : Char → Bool) (a : List Char) (x : Char) (r : List Char)
    (ha : ∀ y ∈ a, p y = true) (hx : p x = false) :
    (a ++ x :: r).takeWhile p = a := by
  induction a with
  | nil => simp [List.takeWhile_cons, hx]
  | cons y a ih =>
    have hy : p y = true := ha y (by simp)
    simp only [List.cons_append, List.takeWhile_cons, hy, if_true]
    rw [ih (fun z hz => ha z (by simp [hz]))]

theorem splitDir_append (pre b : List Char) (hb : '/' ∉ b) :
    splitDir (pre ++ '/' :: b) = pre ++ ['/'] := by
  unfold splitDir
  have : (pre ++ '/' :: b).reverse = b.reverse ++ '/' :: pre.reverse := by simp
  rw [this, dropWhile_append_stop _ _ _ _ (fun y hy => by
    have : y ≠ '/' := fun e => hb (by rw [← e]; exact List.mem_reverse.1 hy)
    simpa using this) (by simp)]
  simp

theorem Base_append (pre b : List Char) (hb0 : b ≠ []) (hb : '/' ∉ b) :
    Base (pre ++ '/' :: b) = b := by
  unfold Base
  rw [if_neg (by simp)]
  have hrev : (pre ++ '/' :: b).reverse = b.reverse ++ '/' :: pre.reverse := by simp
  have hno : ∀ y ∈ b.reverse, y ≠ '/' := fun y hy e =>
    hb (by rw [← e]; exact List.mem_reverse.1 hy)
  have h1 : (pre ++ '/' :: b).reverse.dropWhile (fun x => decide (x = '/')) =
      (pre ++ '/' :: b).reverse := by
    rw [hrev]
    cases hbr : b.reverse with
    | nil => simp at hbr; exact absurd hbr hb0
    | cons y ys =>
      have : y ≠ '/' := hno y (by simp [hbr])
      simp [List.dropWhile_cons, this]
  simp only [h1, List.reverse_reverse]
  rw [hrev, takeWhile_append_stop _ _ _ _ (fun y hy => by simpa using hno y hy) (by simp)]
  simp [hb0]

/-- A clean absolute path is a slash followed by its components, joined by
slashes, and its components are names. -/
theorem IsCleanAbs.form {s : Path} (h : IsCleanAbs s) :
    s = '/' :: joinSlash (components s) ∧ ∀ t ∈ components s, IsName t := by
  have hv := normalize_valid s
  have hr := Clean_eq_render s
  rw [h.1, h.2] at hr
  rw [h.2] at hv
  have hc : components s = (normalize s).ns := by
    conv_lhs => rw [hr]
    rw [Stack.components_render true _ hv, hv.2 rfl]
    simp
  refine ⟨?_, fun t ht => hv.1 t (hc ▸ ht)⟩
  rw [hc]
  conv_lhs => rw [hr]
  simp [Stack.render, Stack.buf]

/-- For a clean absolute path, the components of the directory followed by
those of the base name are the components of the path; the directory is
absolute. -/
theorem IsCleanAbs.dir_base {s : Path} (h : IsCleanAbs s) :
    components (Dir s) ++ components (Base s) = components s ∧ isAbs (Dir s) = true := by
  obtain ⟨hf, hn⟩ := h.form
  rcases List.eq_nil_or_concat (components s) with he | ⟨ms, b, he⟩
  · rw [he] at hf
    simp only [joinSlash] at hf
    rw [hf]
    decide
  · rw [List.concat_eq_append] at he
    have hb : IsName b := hn b (by simp [he])
    have hms : ∀ t ∈ ms, IsName t := fun t ht => hn t (by simp [he, ht])
    have hms2 : ∀ t ∈ ms, IsComp t := fun t ht => (hms t ht).isComp
    -- the text before the last slash
    obtain ⟨pre, hpre, hcp, hs⟩ : ∃ pre : List Char, (pre = [] ∨ isAbs pre = true) ∧
        components pre = ms ∧ s = pre ++ '/' :: b := by
      by_cases hm : ms = []
      · refine ⟨[], Or.inl rfl, by simp [components_nil, hm], ?_⟩
        rw [hf, he, hm]; simp [joinSlash]
      · refine ⟨'/' :: joinSlash ms, Or.inr (by simp [isAbs]), ?_, ?_⟩
        · rw [components_slash_cons, components_joinSlash _ hms2]
        · conv_lhs => rw [hf, he, joinSlash_append _ _ hm (by simp)]
          simp [joinSlash]
    have hd : splitDir s = pre ++ ['/'] := by rw [hs]; exact splitDir_append pre b hb.2.1
    have hbase : Base s = b := by rw [hs]; exact Base_append pre b hb.1 hb.2.1
    have hcd : components (splitDir s) = ms := by
      rw [hd, components_append_single_slash, hcp]
    have had : isAbs (splitDir s) = true := by
      rw [hd]
      rcases hpre with h0 | h0
      · simp [h0, isAbs]
      · rw [isAbs_append _ _ (by intro e; simp [e, isAbs] at h0)]; exact h0
    refine ⟨?_, ?_⟩
    · unfold Dir
      rw [components_Clean_of_names _ (by rw [hcd]; exact hms), hcd, hbase,
        components_name b hb, he]
    · unfold Dir
      rw [isAbs_Clean, had]

/-- Below a non-empty root, a clean absolute source is mapped to the cleaned
`root/source`. -/
theorem mapPath_cleanAbs (root s : Path) (hr : root ≠ []) (h : IsCleanAbs s) :
    mapPath root s = Clean (root ++ '/' :: s) := by
  rw [mapPath_eq root s hr]
  apply Clean_congr
  · rw [isAbs_append _ _ hr, isAbs_append _ _ hr]
  · rw [components_append_slash, components_append_slash, components_append_slash,
      h.dir_base.1]

/-- Below the empty root, a clean absolute source is mapped to itself. -/
theorem mapPath_nil_cleanAbs (s : Path) (h : IsCleanAbs s) : mapPath [] s = s := by
  rw [mapPath_nil]
  conv_rhs => rw [← h.1]
  apply Clean_congr
  · rw [isAbs_append _ _ (Dir_ne_nil s), h.dir_base.2, h.2]
  · rw [components_append_slash, h.dir_base.1]

/-- Below a clean root other than `/` and `.`, a clean absolute source other
than `/` is mapped to the root with the source appended. -/
theorem mapPath_cleanAbs_append (root s : Path) (hc : Clean root = root)
    (h1 : root ≠ ['/']) (h2 : root ≠ ['.']) (h : IsCleanAbs s) (hs : s ≠ ['/']) :
    mapPath root s = root ++ s := by
  have hr : root ≠ [] := by rw [← hc]; exact Clean_ne_nil root
  obtain ⟨hf, hn⟩ := h.form
  have hv := normalize_valid root
  have hcomp := Stack.comps_isComp _ _ hv
  have hroot := Clean_eq_render root
  rw [hc] at hroot
  have hcs : components s ≠ [] := by
    intro e
    rw [e] at hf
    exact hs (by simpa [joinSlash] using hf)
  -- the root has at least one component
  have hne : List.replicate (normalize root).k dotdotElem ++ (normalize root).ns ≠ [] := by
    intro e
    have hb := Stack.buf_eq _ _ hv
    rw [e] at hb
    rw [Stack.render, hb] at hroot
    cases ha : isAbs root with
    | true => rw [ha] at hroot; exact h1 (by simpa [rootPrefix, joinSlash] using hroot)
    | false => rw [ha] at hroot; exact h2 (by simpa [rootPrefix, joinSlash] using hroot)
  have hj : joinSlash (List.replicate (normalize root).k dotdotElem ++ (normalize root).ns) ≠ [] :=
    fun e => hne ((joinSlash_eq_nil _ (fun c hc => (hcomp c hc).1)).1 e)
  have hbuf : (normalize root).buf (isAbs root) = root := by
    have hb : (normalize root).buf (isAbs root) ≠ [] := by
      rw [Stack.buf_eq _ _ hv]; simp [hj]
    rw [Stack.render, if_neg hb] at hroot
    exact hroot.symm
  rw [mapPath_cleanAbs root s hr h, Clean_eq_render, normalize_append_slash _ _ hr,
    isAbs_append _ _ hr, Stack.run_names _ _ _ hn]
  have hv2 : Stack.Valid (isAbs root)
      { normalize root with ns := (normalize root).ns ++ components s } :=
    ⟨fun t ht => by
      rcases List.mem_append.1 ht with h0 | h0
      · exact hv.1 t h0
      · exact hn t h0, hv.2⟩
  have hb2 : Stack.buf (isAbs root)
      { normalize root with ns := (normalize root).ns ++ components s } = root ++ s := by
    rw [Stack.buf_eq _ _ hv2]
    simp only
    rw [← List.append_assoc, joinSlash_append _ _ hne hcs, ← List.append_assoc,
      ← Stack.buf_eq _ _ hv, hbuf]
    conv_rhs => rw [hf]
  rw [Stack.render, hb2, if_neg (by simp [hr])]

/-- The path mapper is injective on clean absolute sources, whatever the root. -/
theorem mapPath_injective (root s1 s2 : Path) (h1 : IsCleanAbs s1) (h2 : IsCleanAbs s2)
    (h : mapPath root s1 = mapPath root s2) : s1 = s2 := by
  by_cases hr : root = []
  · rw [hr, mapPath_nil_cleanAbs s1 h1, mapPath_nil_cleanAbs s2 h2] at h
    exact h
  · rw [mapPath_cleanAbs root s1 hr h1, mapPath_cleanAbs root s2 hr h2] at h
    have hn := congrArg normalize h
    rw [normalize_Clean, normalize_Clean, normalize_append_slash _ _ hr,
      normalize_append_slash _ _ hr,
      Stack.run_names _ _ _ h1.form.2, Stack.run_names _ _ _ h2.form.2] at hn
    have hc : components s1 = components s2 := by
      have := congrArg Stack.ns hn
      simpa using this
    rw [h1.form.1, h2.form.1, hc]

/-! ## Staying under the root -/

theorem isUnder_of_append (root dest : Path) (rest : List (List Char))
    (ha : isAbs root = isAbs dest) (hc : components dest = components root ++ rest)
    (hr : dotdotElem ∉ rest) : isUnder root dest = true := by
  unfold isUnder
  rw [ha, hc, List.drop_left]
  simp [hr]

theorem components_all_slash (sl : List Char) (h : ∀ c ∈ sl, c = '/') : components sl = [] := by
  induction sl with
  | nil => exact components_nil
  | cons c sl ih =>
    rw [h c (by simp), components_slash_cons]
    exact ih (fun x hx => h x (by simp [hx]))

theorem components_append_all_slash (x sl : List Char) (h : ∀ c ∈ sl, c = '/') :
    components (x ++ sl) = components x := by
  cases sl with
  | nil => simp
  | cons c sl =>
    rw [h c (by simp), components_append_slash,
      components_all_slash sl (fun y hy => h y (by simp [hy]))]
    simp

theorem components_splitDir_subset (f : Path) :
    ∀ t ∈ components (splitDir f), t ∈ components f := by
  intro t ht
  have hsplit := List.takeWhile_append_dropWhile (fun x => decide (x ≠ '/')) f.reverse
  rcases dropWhile_slash_head f.reverse with h | ⟨r, h⟩
  · unfold splitDir at ht
    rw [h] at ht
    simp [components_nil] at ht
  · rw [h] at hsplit
    have hf : f = r.reverse ++ '/' :: (f.reverse.takeWhile (fun x => decide (x ≠ '/'))).reverse := by
      have := congrArg List.reverse hsplit
      simp only [List.reverse_reverse, List.reverse_append, List.reverse_cons,
        List.append_assoc, List.singleton_append] at this
      exact this.symm
    have hd : splitDir f = r.reverse ++ ['/'] := by
      unfold splitDir
      rw [h]
      simp
    rw [hd, components_append_single_slash] at ht
    rw [hf, components_append_slash]
    exact List.mem_append_left _ ht

theorem components_Base_subset (f : Path) :
    ∀ t ∈ components (Base f), t ∈ components f := by
  intro t ht
  unfold Base at ht
  by_cases hf : f = []
  · rw [if_pos hf] at ht
    simp [components, elems] at ht
  · rw [if_neg hf] at ht
    simp only [List.reverse_reverse] at ht
    -- `f` reversed: its trailing slashes, then the rest `g`
    have hsl := List.takeWhile_append_dropWhile (fun x => decide (x = '/')) f.reverse
    have hall : ∀ c ∈ (f.reverse.takeWhile (fun x => decide (x = '/'))).reverse, c = '/' := by
      intro c hc
      have := List.mem_takeWhile_imp (List.mem_reverse.1 hc)
      simpa using this
    generalize hg : f.reverse.dropWhile (fun x => decide (x = '/')) = g at ht hsl
    have hf2 : f = g.reverse ++ (f.reverse.takeWhile (fun x => decide (x = '/'))).reverse := by
      have := congrArg List.reverse hsl
      simp only [List.reverse_reverse, List.reverse_append] at this
      exact this.symm
    have hcf : components f = components g.reverse := by
      conv_lhs => rw [hf2]
      exact components_append_all_slash _ _ hall
    by_cases hp : (g.takeWhile (fun x => decide (x ≠ '/'))).reverse = []
    · rw [if_pos hp] at ht
      simp [components, elems] at ht
    · rw [if_neg hp] at ht
      have hsp := List.takeWhile_append_dropWhile (fun x => decide (x ≠ '/')) g
      rw [hcf]
      rcases dropWhile_slash_head g with h | ⟨r, h⟩
      · rw [h] at hsp
        simp only [List.append_nil] at hsp
        rw [hsp] at ht
        exact ht
      · rw [h] at hsp
        have hgr : g.reverse =
            r.reverse ++ '/' :: (g.takeWhile (fun x => decide (x ≠ '/'))).reverse := by
          have := congrArg List.reverse hsp
          simp only [List.reverse_append, List.reverse_cons, List.append_assoc,
            List.singleton_append] at this
          exact this.symm
        rw [hgr, components_append_slash]
        exact List.mem_append_right _ ht

/-- Joining names to a path appends them to its cleaned components. -/
theorem components_Clean_append_names (x y : Path) (hx : x ≠ [])
    (hy : ∀ t ∈ components y, IsName t) :
    components (Clean (x ++ '/' :: y)) = components (Clean x) ++ components y ∧
      isAbs (Clean (x ++ '/' :: y)) = isAbs (Clean x) := by
  refine ⟨?_, ?_⟩
  · rw [components_Clean, components_Clean, normalize_append_slash _ _ hx,
      Stack.run_names _ _ _ hy]
    simp
  · rw [isAbs_Clean, isAbs_Clean, isAbs_append _ _ hx]

theorem names_of_no_dotdot (p : Path) (h : dotdotElem ∉ components p) :
    ∀ t ∈ components p, IsName t := by
  intro t ht
  have hc := components_isComp p t ht
  exact ⟨hc.1, hc.2.1, hc.2.2, fun e => h (e ▸ ht)⟩

/-- For a source without a `..` component, the directory and the base name
have name components only, all of them components of the source. -/
theorem dir_base_names (f : Path) (h : dotdotElem ∉ components f) :
    (∀ t ∈ components (Dir f), IsName t) ∧ (∀ t ∈ components (Base f), IsName t) := by
  have hn := names_of_no_dotdot f h
  have hsd : ∀ t ∈ components (splitDir f), IsName t :=
    fun t ht => hn t (components_splitDir_subset f t ht)
  refine ⟨?_, fun t ht => hn t (components_Base_subset f t ht)⟩
  unfold Dir
  rw [components_Clean_of_names _ hsd]
  exact hsd

/-! ## The two loops of `Extract` as one plan -/

theorem loopDeps_eq_loopPlan (w : World) (outDir : Path) (fs : List FileInfo) :
    ∀ st, loopDeps w outDir fs st = loopPlan w (fs.map (depItem outDir)) st := by
  induction fs with
  | nil => intro st; rfl
  | cons f fs ih =>
    intro st
    simp only [loopDeps, List.map_cons, loopPlan, depItem]
    cases w.MkdirAll (Join [outDir, Dir f.FullName]) with
    | some err => rfl
    | none => exact ih _

theorem loopFiles_eq_loopPlan (w : World) (outDir : Path) (fs : List Path) :
    ∀ st, loopFiles w outDir fs st = loopPlan w (fs.map (fileItem outDir)) st := by
  induction fs with
  | nil => intro st; rfl
  | cons f fs ih =>
    intro st
    simp only [loopFiles, List.map_cons, loopPlan, fileItem]
    cases w.MkdirAll (Join [outDir, Dir f]) with
    | some err => rfl
    | none => exact ih _

theorem loopPlan_append (w : World) (a b : List Item) :
    ∀ st, loopPlan w (a ++ b) st =
      match loopPlan w a st with
      | (some err, st1) => (some err, st1)
      | (none, st1) => loopPlan w b st1 := by
  induction a with
  | nil => intro st; rfl
  | cons x a ih =>
    intro st
    simp only [List.cons_append, loopPlan]
    cases w.MkdirAll x.dir with
    | some err => rfl
    | none => exact ih _

/-- The function `Extract`, once the options and the resolver have succeeded, is one loop
over the plan followed by the barrier. -/
theorem Extract_eq_loopPlan (w : World) (st : State) (o : List option) (c : config)
    (deps : List FileInfo) (hopt : applyOptions o { files := [], outDir := [] } = .ok c)
    (hldd : w.Ldd c.files = .ok deps) :
    Extract w st o =
      match loopPlan w (extractPlan c deps) st with
      | (some err, st1) => (some err, st1)
      | (none, st1) => (none, wgWait w st1) := by
  unfold Extract extractPlan
  simp only [hopt, hldd]
  rw [loopPlan_append, loopDeps_eq_loopPlan]
  rcases h1 : loopPlan w (deps.map (depItem c.outDir)) st with ⟨r1, s1⟩
  cases r1 with
  | some err => rfl
  | none =>
    simp only
    rw [loopFiles_eq_loopPlan]

theorem stateAfter_nil (st : State) : stateAfter st [] = st := by
  simp [stateAfter, planEvents]

theorem stateAfter_cons (st : State) (x : Item) (xs : List Item) :
    stateAfter st (x :: xs) =
      stateAfter
        { st with
          trace := st.trace ++ [Event.mkdir x.dir none, Event.dispatch x.src x.dest]
          tree := x.dir :: st.tree
          inflight := st.inflight ++ [(x.src, x.dest)] } xs := by
  simp [stateAfter, planEvents, Item.copy]

/-- A loop whose directory creations all succeed runs every iteration. -/
theorem loopPlan_ok (w : World) (xs : List Item) :
    ∀ st, (∀ x ∈ xs, w.MkdirAll x.dir = none) → loopPlan w xs st = (none, stateAfter st xs) := by
  induction xs with
  | nil => intro st _; simp [loopPlan, stateAfter_nil]
  | cons x xs ih =>
    intro st h
    rw [loopPlan, h x (by simp), stateAfter_cons]
    exact ih _ (fun y hy => h y (by simp [hy]))

/-- A loop stops at the first directory creation that fails. -/
theorem loopPlan_fail (w : World) (pre : List Item) (x : Item) (post : List Item) (err : Error)
    (st : State) (hpre : ∀ y ∈ pre, w.MkdirAll y.dir = none) (hx : w.MkdirAll x.dir = some err) :
    loopPlan w (pre ++ x :: post) st =
      (some err, { stateAfter st pre with
        trace := (stateAfter st pre).trace ++ [Event.mkdir x.dir (some err)] }) := by
  rw [loopPlan_append, loopPlan_ok w pre st hpre]
  simp only [loopPlan, hx]

/-- Every plan either succeeds at every directory or has a first failure. -/
theorem plan_cases (w : World) (xs : List Item) :
    (∀ x ∈ xs, w.MkdirAll x.dir = none) ∨
      ∃ pre x post err, xs = pre ++ x :: post ∧ (∀ y ∈ pre, w.MkdirAll y.dir = none) ∧
        w.MkdirAll x.dir = some err := by
  induction xs with
  | nil => left; simp
  | cons x xs ih =>
    cases hx : w.MkdirAll x.dir with
    | some err => right; exact ⟨[], x, xs, err, rfl, by simp, hx⟩
    | none =>
      rcases ih with h | ⟨pre, y, post, err, h1, h2, h3⟩
      · left
        intro z hz
        rcases List.mem_cons.1 hz with e | e
        · rw [e]; exact hx
        · exact h z e
      · right
        refine ⟨x :: pre, y, post, err, by simp [h1], ?_, h3⟩
        intro z hz
        rcases List.mem_cons.1 hz with e | e
        · rw [e]; exact hx
        · exact h2 z e

theorem dispatched_append (a b : List Event) :
    dispatched (a ++ b) = dispatched a ++ dispatched b := by
  induction a with
  | nil => rfl
  | cons e a ih => cases e <;> simp [dispatched, ih]

theorem created_append (a b : List Event) : created (a ++ b) = created a ++ created b := by
  induction a with
  | nil => rfl
  | cons e a ih =>
    cases e with
    | mkdir d err => cases err <;> simp [created, ih]
    | dispatch s d => simp [created, ih]
    | wait => simp [created, ih]

theorem dispatched_planEvents (xs : List Item) : dispatched (planEvents xs) = xs.map Item.copy := by
  induction xs with
  | nil => rfl
  | cons x xs ih => simp [planEvents, dispatched, ih, Item.copy]

theorem created_planEvents (xs : List Item) : created (planEvents xs) = xs.map Item.dir := by
  induction xs with
  | nil => rfl
  | cons x xs ih => simp [planEvents, created, ih]

theorem wait_not_mem_planEvents (xs : List Item) : Event.wait ∉ planEvents xs := by
  induction xs with
  | nil => simp [planEvents]
  | cons x xs ih => simp [planEvents, ih]

/-! ## The barrier -/

theorem copyAll_frame (w : World) (cs : List (Path × Path)) :
    ∀ st, (copyAll w cs st).trace = st.trace ∧ (copyAll w cs st).inflight = st.inflight := by
  induction cs with
  | nil => intro st; exact ⟨rfl, rfl⟩
  | cons c cs ih =>
    intro st
    have h := ih (copyFile w st c.1 c.2)
    simp only [copyAll, List.foldl_cons] at h ⊢
    rw [h.1, h.2]
    unfold copyFile
    cases w.Copy c.1 c.2 <;> exact ⟨rfl, rfl⟩

theorem copyAll_stdout (w : World) (cs : List (Path × Path)) :
    ∀ st, (copyAll w cs st).stdout = st.stdout ++ cs.filterMap (copyLine w) := by
  induction cs with
  | nil => intro st; simp [copyAll]
  | cons c cs ih =>
    intro st
    have h := ih (copyFile w st c.1 c.2)
    simp only [copyAll, List.foldl_cons] at h ⊢
    rw [h]
    unfold copyFile copyLine
    cases hc : w.Copy c.1 c.2 <;> simp [List.filterMap_cons, hc, copyLine]

theorem copyAll_tree (w : World) (cs : List (Path × Path)) :
    ∀ st p, p ∈ (copyAll w cs st).tree ↔
      p ∈ st.tree ∨ ∃ c ∈ cs, w.Copy c.1 c.2 = none ∧ c.2 = p := by
  induction cs with
  | nil => intro st p; simp [copyAll]
  | cons c cs ih =>
    intro st p
    have h := ih (copyFile w st c.1 c.2) p
    simp only [copyAll, List.foldl_cons] at h ⊢
    rw [h]
    unfold copyFile
    cases hc : w.Copy c.1 c.2 with
    | some err =>
      simp only [List.mem_cons, exists_eq_or_imp, hc]
      simp
    | none =>
      simp only [List.mem_cons, exists_eq_or_imp, hc]
      constructor
      · rintro (h1 | h1)
        · rcases h1 with h1 | h1
          · exact Or.inr (Or.inl ⟨trivial, h1.symm⟩)
          · exact Or.inl h1
        · exact Or.inr (Or.inr h1)
      · rintro (h1 | h1 | h1)
        · exact Or.inl (Or.inr h1)
        · exact Or.inl (Or.inl h1.2.symm)
        · exact Or.inr h1

theorem wgWait_eq (w : World) (st : State) :
    wgWait w st =
      { copyAll w st.inflight st with
        trace := st.trace ++ [Event.wait], inflight := [] } := by
  have h := (copyAll_frame w st.inflight st).1
  unfold copyAll at h ⊢
  unfold wgWait
  simp only [h]

/-! ## Runs of `Extract` -/

/-- A run in which all directory creations succeed ends at the barrier. -/
theorem Extract_ok (w : World) (st : State) (o : List option) (c : config)
    (deps : List FileInfo) (hopt : applyOptions o { files := [], outDir := [] } = .ok c)
    (hldd : w.Ldd c.files = .ok deps)
    (hmk : ∀ x ∈ extractPlan c deps, w.MkdirAll x.dir = none) :
    Extract w st o = (none, wgWait w (stateAfter st (extractPlan c deps))) := by
  rw [Extract_eq_loopPlan w st o c deps hopt hldd, loopPlan_ok w _ st hmk]

/-- A run in which a directory creation fails returns at that iteration. -/
theorem Extract_fail (w : World) (st : State) (o : List option) (c : config)
    (deps : List FileInfo) (pre : List Item) (x : Item) (post : List Item) (err : Error)
    (hopt : applyOptions o { files := [], outDir := [] } = .ok c)
    (hldd : w.Ldd c.files = .ok deps)
    (hplan : extractPlan c deps = pre ++ x :: post)
    (hpre : ∀ y ∈ pre, w.MkdirAll y.dir = none) (hx : w.MkdirAll x.dir = some err) :
    Extract w st o =
      (some err, { stateAfter st pre with
        trace := (stateAfter st pre).trace ++ [Event.mkdir x.dir (some err)] }) := by
  rw [Extract_eq_loopPlan w st o c deps hopt hldd, hplan, loopPlan_fail w pre x post err st hpre hx]

theorem wgWait_trace (w : World) (st : State) : (wgWait w st).trace = st.trace ++ [Event.wait] := by
  rw [wgWait_eq]

/-- The copies a run dispatches are those of an initial part of the plan. -/
theorem Extract_dispatched (w : World) (tree : List Path) (o : List option) (c : config)
    (deps : List FileInfo) (hopt : applyOptions o { files := [], outDir := [] } = .ok c)
    (hldd : w.Ldd c.files = .ok deps) :
    ∃ pre, pre <+: extractPlan c deps ∧
      dispatched (Extract w (State.start tree) o).2.trace = pre.map Item.copy := by
  rcases plan_cases w (extractPlan c deps) with h | ⟨pre, x, post, err, h1, h2, h3⟩
  · refine ⟨extractPlan c deps, List.prefix_refl _, ?_⟩
    rw [Extract_ok w _ o c deps hopt hldd h, wgWait_trace]
    simp [stateAfter, State.start, dispatched_append, dispatched_planEvents, dispatched]
  · refine ⟨pre, ⟨x :: post, h1.symm⟩, ?_⟩
    rw [Extract_fail w _ o c deps pre x post err hopt hldd h1 h2 h3]
    simp [stateAfter, State.start, dispatched_append, dispatched_planEvents, dispatched]

theorem depItem_dest_eq (outDir : Path) (e : FileInfo) (h : e.Name = Base e.FullName) :
    (depItem outDir e).dest = mapPath outDir e.FullName := by
  simp [depItem, mapPath, h]

theorem fileItem_dest_eq (outDir f : Path) : (fileItem outDir f).dest = mapPath outDir f := rfl

theorem mapPath_eq_Join (root s : Path) (h : IsCleanAbs s) : mapPath root s = Join [root, s] := by
  have hs : s ≠ [] := by rw [← h.1]; exact Clean_ne_nil s
  by_cases hr : root = []
  · rw [hr, mapPath_nil_cleanAbs s h, Join_nil_left s hs, h.1]
  · rw [mapPath_cleanAbs root s hr h, Join_pair root s hr]

/-! ## C1: path mapping -/

/-- C1, as stated, fails: with the output root `/tmp/out/` (a trailing slash)
the library `/lib/libexample.so.1`, a clean absolute path, is copied to
`/tmp/out/lib/libexample.so.1`, which is not the root with the source
appended; the same happens with the clean root `.`. -/
theorem path_mapping_unclean_root :
    IsCleanAbs libExample ∧ libExample ≠ ['/'] ∧
    dispatched (Extract worldOk (State.start [])
        [WithFiles [binApp], WithOutputDir "/tmp/out/".toList]).2.trace =
      [(libExample, "/tmp/out/lib/libexample.so.1".toList),
       (binApp, "/tmp/out/bin/app".toList)] ∧
    mapPath "/tmp/out/".toList libExample ≠ "/tmp/out/".toList ++ libExample ∧
    Clean ".".toList = ".".toList ∧
    mapPath ".".toList libExample ≠ ".".toList ++ libExample := by
  decide

/-- C1, amended: every copy dispatched by `Extract` is that of an input file
`f`, with destination `Join(Join(outDir, Dir(f)), Base(f))`, or that of a
resolver entry, with destination `Join(Join(outDir, Dir(FullName)), Name())`,
which is the mapped path of `FullName` when `Name()` is its base name.  For a
clean absolute source the mapped path is `Join(outDir, s)`; it is the string
`outDir ++ s` when moreover `s` is not `/` and the root is empty or is a clean
path other than `/` and `.`. -/
theorem path_mapping (w : World) (tree : List Path) (o : List option) (c : config)
    (deps : List FileInfo) (hopt : applyOptions o { files := [], outDir := [] } = .ok c)
    (hldd : w.Ldd c.files = .ok deps) :
    (∀ x ∈ dispatched (Extract w (State.start tree) o).2.trace,
      (∃ f ∈ c.files, x = (f, mapPath c.outDir f)) ∨
      (∃ e ∈ deps, x = (e.FullName, Join [Join [c.outDir, Dir e.FullName], e.Name]) ∧
        (e.Name = Base e.FullName → x = (e.FullName, mapPath c.outDir e.FullName)))) ∧
    (∀ s, IsCleanAbs s → mapPath c.outDir s = Join [c.outDir, s]) ∧
    (∀ s, IsCleanAbs s → s ≠ ['/'] →
      (c.outDir = [] ∨ (Clean c.outDir = c.outDir ∧ c.outDir ≠ ['/'] ∧ c.outDir ≠ ['.'])) →
      mapPath c.outDir s = c.outDir ++ s) := by
  refine ⟨?_, fun s hs => mapPath_eq_Join c.outDir s hs, ?_⟩
  · intro x hx
    obtain ⟨pre, hpre, hd⟩ := Extract_dispatched w tree o c deps hopt hldd
    rw [hd] at hx
    obtain ⟨it, hit, rfl⟩ := List.mem_map.1 hx
    have hmem : it ∈ extractPlan c deps := hpre.subset hit
    rcases List.mem_append.1 hmem with h | h
    · obtain ⟨e, he, rfl⟩ := List.mem_map.1 h
      right
      refine ⟨e, he, rfl, fun hn => ?_⟩
      simp only [Item.copy, depItem_dest_eq c.outDir e hn]
      rfl
    · obtain ⟨f, hf, rfl⟩ := List.mem_map.1 h
      left
      exact ⟨f, hf, rfl⟩
  · intro s hs hne hroot
    rcases hroot with h | ⟨h1, h2, h3⟩
    · rw [h, mapPath_nil_cleanAbs s hs]; rfl
    · exact mapPath_cleanAbs_append c.outDir s h1 h2 h3 hs hne

/-- C1 at the example of the specification: root `/tmp/out` and source
`/lib/libexample.so.1` give `/tmp/out/lib/libexample.so.1`. -/
theorem path_mapping_witness :
    mapPath tmpOut libExample = "/tmp/out/lib/libexample.so.1".toList :=
  ((path_mapping worldOk [] [WithFiles [binApp], WithOutputDir tmpOut]
      { files := [binApp], outDir := tmpOut } [libEntry] rfl rfl).2.2
    libExample (by decide) (by decide) (Or.inr (by decide))).trans (by decide)

/-! ## C2: a failing resolver stops everything -/

/-- C2: when the resolver returns an error for the configured files,
`Extract` returns that error and the state is the one it started from: no
directory is created, no copy is dispatched, the tree is untouched. -/
theorem resolution_failure_fail_fast (w : World) (st : State) (o : List option) (c : config)
    (err : Error) (hopt : applyOptions o { files := [], outDir := [] } = .ok c)
    (hldd : w.Ldd c.files = .error err) :
    Extract w st o = (some err, st) ∧
      created (Extract w st o).2.trace = created st.trace ∧
      dispatched (Extract w st o).2.trace = dispatched st.trace ∧
      (Extract w st o).2.tree = st.tree := by
  have h : Extract w st o = (some err, st) := by
    unfold Extract
    simp only [hopt, hldd]
  rw [h]
  exact ⟨rfl, rfl, rfl, rfl⟩

/-- C2 on the second scenario of the specification: `libmissing.so` is not
found, nothing is written under `/tmp/out`. -/
theorem resolution_failure_fail_fast_witness :
    Extract worldMissing (State.start []) [WithFiles [binApp], WithOutputDir tmpOut] =
      (some "libmissing.so: not found", State.start []) :=
  (resolution_failure_fail_fast worldMissing (State.start [])
    [WithFiles [binApp], WithOutputDir tmpOut] { files := [binApp], outDir := tmpOut }
    "libmissing.so: not found" rfl rfl).1

/-! ## C5: the plan is the dependencies followed by the inputs -/

/-- C5: when the options, the resolver and every directory creation succeed,
`Extract` returns nil and the copies it dispatches are, in order, one copy
`FullName -> Join(Join(outDir, Dir(FullName)), Name())` per resolver entry and
then one copy `f -> Join(Join(outDir, Dir(f)), Base(f))` per input file, and
nothing else; when every entry is named by the base name of its path, these
are the copies `s -> mapPath outDir s` for the resolved paths followed by the
input files. -/
theorem extraction_plan (w : World) (tree : List Path) (o : List option) (c : config)
    (deps : List FileInfo) (hopt : applyOptions o { files := [], outDir := [] } = .ok c)
    (hldd : w.Ldd c.files = .ok deps)
    (hmkd : ∀ e ∈ deps, w.MkdirAll (Join [c.outDir, Dir e.FullName]) = none)
    (hmkf : ∀ f ∈ c.files, w.MkdirAll (Join [c.outDir, Dir f]) = none) :
    (Extract w (State.start tree) o).1 = none ∧
      dispatched (Extract w (State.start tree) o).2.trace =
        deps.map (fun e => (e.FullName, Join [Join [c.outDir, Dir e.FullName], e.Name])) ++
          c.files.map (fun f => (f, Join [Join [c.outDir, Dir f], Base f])) ∧
      ((∀ e ∈ deps, e.Name = Base e.FullName) →
        dispatched (Extract w (State.start tree) o).2.trace =
          (deps.map FileInfo.FullName ++ c.files).map (fun s => (s, mapPath c.outDir s))) := by
  have hmk : ∀ x ∈ extractPlan c deps, w.MkdirAll x.dir = none := by
    intro x hx
    rcases List.mem_append.1 hx with h | h
    · obtain ⟨e, he, rfl⟩ := List.mem_map.1 h
      exact hmkd e he
    · obtain ⟨f, hf, rfl⟩ := List.mem_map.1 h
      exact hmkf f hf
  have hd : dispatched (Extract w (State.start tree) o).2.trace =
      deps.map (fun e => (e.FullName, Join [Join [c.outDir, Dir e.FullName], e.Name])) ++
        c.files.map (fun f => (f, Join [Join [c.outDir, Dir f], Base f])) := by
    rw [Extract_ok w _ o c deps hopt hldd hmk, wgWait_trace]
    simp [stateAfter, State.start, dispatched_append, dispatched_planEvents, dispatched,
      extractPlan, Item.copy, depItem, fileItem, Function.comp_def]
  refine ⟨by rw [Extract_ok w _ o c deps hopt hldd hmk], hd, fun hn => ?_⟩
  rw [hd, List.map_append, List.map_map]
  congr 1
  apply List.map_congr_left
  intro e he
  simp [mapPath, hn e he]

/-- C5 on the first scenario of the specification: the library, then the
binary itself. -/
theorem extraction_plan_witness :
    dispatched (Extract worldOk (State.start [])
        [WithFiles [binApp], WithOutputDir tmpOut]).2.trace =
      [(libExample, "/tmp/out/lib/libexample.so.1".toList),
       (binApp, "/tmp/out/bin/app".toList)] :=
  ((extraction_plan worldOk [] [WithFiles [binApp], WithOutputDir tmpOut]
      { files := [binApp], outDir := tmpOut } [libEntry] rfl rfl
      (fun _ _ => rfl) (fun _ _ => rfl)).2.1).trans (by decide)

/-! ## C3: copy failures -/

/-- C3, as stated, fails: both dispatched copies fail and `Extract` returns
nil; the failures are only printed. -/
theorem copy_failure_not_returned :
    dispatched (Extract worldCopyFails (State.start [])
        [WithFiles [binApp], WithOutputDir tmpOut]).2.trace =
      [(libExample, "/tmp/out/lib/libexample.so.1".toList),
       (binApp, "/tmp/out/bin/app".toList)] ∧
    worldCopyFails.Copy libExample "/tmp/out/lib/libexample.so.1".toList =
      some "permission denied" ∧
    (Extract worldCopyFails (State.start [])
        [WithFiles [binApp], WithOutputDir tmpOut]).1 = none ∧
    (Extract worldCopyFails (State.start [])
        [WithFiles [binApp], WithOutputDir tmpOut]).2.stdout =
      ["Error copying file: permission denied", "Error copying file: permission denied"] := by
  decide

/-- C3, amended: when the options, the resolver and every directory creation
succeed, `Extract` returns nil whatever the outcome of the copies, and what a
failed copy leaves is one printed line `Error copying file: <error>`; a
successful copy prints nothing. -/
theorem copy_failures_only_printed (w : World) (tree : List Path) (o : List option)
    (c : config) (deps : List FileInfo)
    (hopt : applyOptions o { files := [], outDir := [] } = .ok c)
    (hldd : w.Ldd c.files = .ok deps)
    (hmk : ∀ x ∈ extractPlan c deps, w.MkdirAll x.dir = none) :
    (Extract w (State.start tree) o).1 = none ∧
      (Extract w (State.start tree) o).2.stdout =
        ((extractPlan c deps).map Item.copy).filterMap (copyLine w) := by
  rw [Extract_ok w _ o c deps hopt hldd hmk]
  refine ⟨rfl, ?_⟩
  rw [wgWait_eq]
  simp only
  rw [copyAll_stdout]
  simp [stateAfter, State.start]

/-- C3, amended, where every copy fails: nil is returned, two lines are
printed. -/
theorem copy_failures_only_printed_witness :
    (Extract worldCopyFails (State.start [])
        [WithFiles [binApp], WithOutputDir tmpOut]).1 = none ∧
    (Extract worldCopyFails (State.start [])
        [WithFiles [binApp], WithOutputDir tmpOut]).2.stdout =
      ((extractPlan { files := [binApp], outDir := tmpOut } [libEntry]).map
        Item.copy).filterMap (copyLine worldCopyFails) :=
  copy_failures_only_printed worldCopyFails [] [WithFiles [binApp], WithOutputDir tmpOut]
    { files := [binApp], outDir := tmpOut } [libEntry] rfl rfl (fun _ _ => rfl)

/-! ## C4: closure completeness -/

/-- C4, as stated, fails: the copy of the library fails, `Extract` returns
nil, and the library is not at its mapped destination. -/
theorem closure_incomplete_after_nil :
    (Extract worldLibCopyFails (State.start [])
        [WithFiles [binApp], WithOutputDir tmpOut]).1 = none ∧
    (libExample, mapPath tmpOut libExample) ∈
      dispatched (Extract worldLibCopyFails (State.start [])
        [WithFiles [binApp], WithOutputDir tmpOut]).2.trace ∧
    mapPath tmpOut libExample ∉
      (Extract worldLibCopyFails (State.start [])
        [WithFiles [binApp], WithOutputDir tmpOut]).2.tree := by
  decide

/-- C4, amended: when `Extract` returns nil and no dispatched copy fails,
every resolver entry exists afterwards at
`Join(Join(outDir, Dir(FullName)), Name())`, which is its mapped path when
`Name()` is the base name of `FullName`, and every input file exists at its
mapped path; with the output directory left empty the mapped path of a clean
absolute input file is the file's own path.  Whatever the copies do, a path
that existed before the run still exists after it. -/
theorem closure_complete (w : World) (tree : List Path) (o : List option) (c : config)
    (deps : List FileInfo) (hopt : applyOptions o { files := [], outDir := [] } = .ok c)
    (hldd : w.Ldd c.files = .ok deps)
    (hnil : (Extract w (State.start tree) o).1 = none)
    (hcopy : ∀ x ∈ extractPlan c deps, w.Copy x.src x.dest = none) :
    (∀ e ∈ deps,
      Join [Join [c.outDir, Dir e.FullName], e.Name] ∈ (Extract w (State.start tree) o).2.tree ∧
      (e.Name = Base e.FullName →
        mapPath c.outDir e.FullName ∈ (Extract w (State.start tree) o).2.tree)) ∧
    (∀ f ∈ c.files, mapPath c.outDir f ∈ (Extract w (State.start tree) o).2.tree) ∧
    (c.outDir = [] → ∀ f ∈ c.files, IsCleanAbs f →
      f ∈ (Extract w (State.start tree) o).2.tree) ∧
    (∀ p ∈ tree, p ∈ (Extract w (State.start tree) o).2.tree) := by
  have hmk : ∀ x ∈ extractPlan c deps, w.MkdirAll x.dir = none := by
    rcases plan_cases w (extractPlan c deps) with h | ⟨pre, x, post, err, h1, h2, h3⟩
    · exact h
    · rw [Extract_fail w _ o c deps pre x post err hopt hldd h1 h2 h3] at hnil
      simp at hnil
  have hin : ∀ x ∈ extractPlan c deps, x.dest ∈ (Extract w (State.start tree) o).2.tree := by
    intro x hx
    rw [Extract_ok w _ o c deps hopt hldd hmk, wgWait_eq]
    simp only
    rw [copyAll_tree]
    right
    exact ⟨x.copy, by simp only [stateAfter, State.start, List.nil_append]
                      exact List.mem_map_of_mem _ hx, hcopy x hx, rfl⟩
  have hfile : ∀ f ∈ c.files, mapPath c.outDir f ∈ (Extract w (State.start tree) o).2.tree := by
    intro f hf
    have := hin (fileItem c.outDir f)
      (List.mem_append_right _ (List.mem_map_of_mem _ hf))
    rwa [fileItem_dest_eq] at this
  refine ⟨?_, hfile, ?_, ?_⟩
  · intro e he
    have h1 := hin (depItem c.outDir e) (List.mem_append_left _ (List.mem_map_of_mem _ he))
    refine ⟨h1, fun hn => ?_⟩
    rwa [depItem_dest_eq c.outDir e hn] at h1
  · intro hout f hf hclean
    have := hfile f hf
    rwa [hout, mapPath_nil_cleanAbs f hclean] at this
  · intro p hp
    rw [Extract_ok w _ o c deps hopt hldd hmk, wgWait_eq]
    simp only
    rw [copyAll_tree]
    left
    simp [stateAfter, State.start, hp]

/-- C4, amended, on the first scenario of the specification: the library is
at `/tmp/out/lib/libexample.so.1` after the run. -/
theorem closure_complete_witness :
    "/tmp/out/lib/libexample.so.1".toList ∈
      (Extract worldOk (State.start [])
        [WithFiles [binApp], WithOutputDir tmpOut]).2.tree :=
  ((closure_complete worldOk [] [WithFiles [binApp], WithOutputDir tmpOut]
      { files := [binApp], outDir := tmpOut } [libEntry] rfl rfl (by decide)
      (fun _ _ => rfl)).1 libEntry (by decide)).1

/-! ## C6: distinct destinations -/

/-- C6, as stated, fails: the resolver lists the binary itself, and `Extract`
dispatches two copies to `/tmp/out/bin/app`. -/
theorem duplicate_destination :
    dispatched (Extract worldSelf (State.start [])
        [WithFiles [binApp], WithOutputDir tmpOut]).2.trace =
      [(binApp, "/tmp/out/bin/app".toList),
       (libExample, "/tmp/out/lib/libexample.so.1".toList),
       (binApp, "/tmp/out/bin/app".toList)] ∧
    ¬ ((dispatched (Extract worldSelf (State.start [])
        [WithFiles [binApp], WithOutputDir tmpOut]).2.trace).map Prod.snd).Nodup := by
  decide

/-- C6, amended: `Extract` dispatches one copy per resolver entry and per
input file, without removing duplicates; when the resolved paths and the
input files, taken together, are pairwise distinct clean absolute paths and
every entry is named by the base name of its path, the destinations of the
dispatched copies are pairwise distinct. -/
theorem distinct_destinations (w : World) (tree : List Path) (o : List option) (c : config)
    (deps : List FileInfo) (hopt : applyOptions o { files := [], outDir := [] } = .ok c)
    (hldd : w.Ldd c.files = .ok deps)
    (hname : ∀ e ∈ deps, e.Name = Base e.FullName)
    (hclean : ∀ s ∈ deps.map FileInfo.FullName ++ c.files, IsCleanAbs s)
    (hnodup : (deps.map FileInfo.FullName ++ c.files).Nodup) :
    ((dispatched (Extract w (State.start tree) o).2.trace).map Prod.snd).Nodup := by
  obtain ⟨pre, hpre, hd⟩ := Extract_dispatched w tree o c deps hopt hldd
  rw [hd]
  have hall : ((extractPlan c deps).map Item.copy).map Prod.snd =
      (deps.map FileInfo.FullName ++ c.files).map (mapPath c.outDir) := by
    simp only [extractPlan, List.map_append, List.map_map]
    congr 1
    · apply List.map_congr_left
      intro e he
      simp [Item.copy, depItem_dest_eq c.outDir e (hname e he)]
  have hnd : (((extractPlan c deps).map Item.copy).map Prod.snd).Nodup := by
    rw [hall]
    exact List.Nodup.map_on
      (fun x hx y hy hxy => mapPath_injective c.outDir x y (hclean x hx) (hclean y hy) hxy)
      hnodup
  exact List.Nodup.sublist ((hpre.sublist.map Item.copy).map Prod.snd) hnd

/-- C6, amended, on the first scenario of the specification. -/
theorem distinct_destinations_witness :
    ((dispatched (Extract worldOk (State.start [])
        [WithFiles [binApp], WithOutputDir tmpOut]).2.trace).map Prod.snd).Nodup :=
  distinct_destinations worldOk [] [WithFiles [binApp], WithOutputDir tmpOut]
    { files := [binApp], outDir := tmpOut } [libEntry] rfl rfl (by decide) (by decide)
    (by decide)

/-! ## C7: the barrier -/

/-- C7 fails on the code: the copy of the library is dispatched, the
directory of the binary cannot be created, and `Extract` returns the error
without `wg.Wait`: the trace has no barrier and the copy is still in flight. -/
theorem return_without_barrier :
    Extract worldMkdirFails (State.start []) [WithFiles [binApp], WithOutputDir tmpOut] =
      (some "permission denied",
        { trace := [Event.mkdir "/tmp/out/lib".toList none,
                    Event.dispatch libExample "/tmp/out/lib/libexample.so.1".toList,
                    Event.mkdir "/tmp/out/bin".toList (some "permission denied")]
          tree := ["/tmp/out/lib".toList]
          stdout := []
          inflight := [(libExample, "/tmp/out/lib/libexample.so.1".toList)] }) := by
  decide

/-! ## C8: staying under the output root -/

theorem loopPlan_trace_all (w : World) (P : Event → Prop) (xs : List Item) :
    ∀ st, (∀ ev ∈ st.trace, P ev) →
      (∀ x ∈ xs, (∀ err, P (Event.mkdir x.dir err)) ∧ P (Event.dispatch x.src x.dest)) →
      ∀ ev ∈ (loopPlan w xs st).2.trace, P ev := by
  induction xs with
  | nil => intro st h _; exact h
  | cons x xs ih =>
    intro st h hx
    have hx0 := hx x (by simp)
    rw [loopPlan]
    cases hm : w.MkdirAll x.dir with
    | some err =>
      intro ev hev
      simp only [List.mem_append, List.mem_singleton] at hev
      rcases hev with h1 | h1
      · exact h ev h1
      · rw [h1]; exact hx0.1 _
    | none =>
      apply ih
      · intro ev hev
        simp only [List.mem_append, List.mem_cons, List.mem_singleton, List.not_mem_nil,
          or_false] at hev
        rcases hev with h1 | h1 | h1
        · exact h ev h1
        · rw [h1]; exact hx0.1 _
        · rw [h1]; exact hx0.2
      · exact fun y hy => hx y (by simp [hy])

/-- The directory and the destination of an input file without a `..`
component lie under a non-empty output root. -/
theorem fileItem_under (outDir f : Path) (hout : outDir ≠ [])
    (hf : dotdotElem ∉ components f) :
    isUnder (Clean outDir) (fileItem outDir f).dir = true ∧
      isUnder (Clean outDir) (fileItem outDir f).dest = true := by
  obtain ⟨hd, hb⟩ := dir_base_names f hf
  have hno : ∀ l : List (List Char), (∀ t ∈ l, IsName t) → dotdotElem ∉ l :=
    fun l hl hm => (hl _ hm).2.2.2 rfl
  constructor
  · have h := components_Clean_append_names outDir (Dir f) hout hd
    simp only [fileItem]
    rw [Join_pair outDir _ hout]
    exact isUnder_of_append _ _ _ h.2.symm h.1 (hno _ hd)
  · have hall : ∀ t ∈ components (Dir f ++ '/' :: Base f), IsName t := by
      intro t ht
      rw [components_append_slash] at ht
      rcases List.mem_append.1 ht with h1 | h1
      · exact hd t h1
      · exact hb t h1
    have h := components_Clean_append_names outDir (Dir f ++ '/' :: Base f) hout hall
    rw [fileItem_dest_eq, mapPath_eq outDir f hout]
    exact isUnder_of_append _ _ _ h.2.symm h.1 (hno _ hall)

/-- C8, as stated, fails: the input `../x` with the output directory
`/tmp/out` is copied to `/tmp/x`, in the directory `/tmp`, both outside
`/tmp/out`; and with the output directory left empty the input `/bin/app` is
copied onto `/bin/app`, outside the cleaned output directory `.`. -/
theorem output_escapes_root :
    (Extract worldNoDeps (State.start [])
        [WithFiles ["../x".toList], WithOutputDir tmpOut]).2.trace =
      [Event.mkdir "/tmp".toList none, Event.dispatch "../x".toList "/tmp/x".toList,
       Event.wait] ∧
    isUnder (Clean tmpOut) "/tmp/x".toList = false ∧
    isUnder (Clean tmpOut) "/tmp".toList = false ∧
    dispatched (Extract worldNoDeps (State.start []) [WithFiles [binApp]]).2.trace =
      [(binApp, binApp)] ∧
    isUnder (Clean []) binApp = false := by
  decide

/-- C8, amended: for every non-empty output directory and input files
without a `..` component, every directory the loop over the input files
creates (or tries to create) and every destination it dispatches a copy to
lies under the cleaned output directory. -/
theorem inputs_stay_under_root (w : World) (tree : List Path) (outDir : Path)
    (files : List Path) (hout : outDir ≠ [])
    (hf : ∀ f ∈ files, dotdotElem ∉ components f) :
    ∀ ev ∈ (loopFiles w outDir files (State.start tree)).2.trace,
      eventUnder (Clean outDir) ev = true := by
  rw [loopFiles_eq_loopPlan]
  apply loopPlan_trace_all w (fun ev => eventUnder (Clean outDir) ev = true)
  · intro ev hev
    simp [State.start] at hev
  · intro x hx
    obtain ⟨f, hfm, rfl⟩ := List.mem_map.1 hx
    have h := fileItem_under outDir f hout (hf f hfm)
    exact ⟨fun _ => h.1, h.2⟩

/-- C8, amended, for the binary of the examples under `/tmp/out`. -/
theorem inputs_stay_under_root_witness :
    eventUnder (Clean tmpOut) (Event.dispatch binApp "/tmp/out/bin/app".toList) = true :=
  inputs_stay_under_root worldOk [] tmpOut [binApp] (by decide) (by decide)
    (Event.dispatch binApp "/tmp/out/bin/app".toList) (by decide)

/-! ## C9: injectivity of the mapping -/

/-- C9, as stated, fails: the distinct sources `/a/b` and `/a//b` are mapped
to the same destination, and so are the clean sources `/a/b` and `a/b`, which
`Extract` copies to the same file. -/
theorem mapping_not_injective :
    mapPath tmpOut "/a/b".toList = mapPath tmpOut "/a//b".toList ∧
    "/a/b".toList ≠ "/a//b".toList ∧
    "/a/b".toList ≠ "a/b".toList ∧
    dispatched (Extract worldNoDeps (State.start [])
        [WithFiles ["/a/b".toList, "a/b".toList], WithOutputDir tmpOut]).2.trace =
      [("/a/b".toList, "/tmp/out/a/b".toList), ("a/b".toList, "/tmp/out/a/b".toList)] := by
  decide

/-- C9, amended: for every output root, two clean absolute source paths
with the same destination `Join(Join(root, Dir(s)), Base(s))` are equal. -/
theorem mapping_injective_on_clean_absolute (root s1 s2 : Path) (h1 : IsCleanAbs s1)
    (h2 : IsCleanAbs s2) (h : mapPath root s1 = mapPath root s2) : s1 = s2 :=
  mapPath_injective root s1 s2 h1 h2 h

/-- C9, amended, at a concrete pair: equal destinations, equal sources. -/
theorem mapping_injective_on_clean_absolute_witness :
    IsCleanAbs libExample ∧ libExample = "/lib/libexample.so.1".toList :=
  ⟨by decide,
    mapping_injective_on_clean_absolute tmpOut libExample "/lib/libexample.so.1".toList
      (by decide) (by decide) (by decide)⟩

/-! ## C10: a failing directory creation -/

/-- C10, as stated, fails: the directory of the binary cannot be created,
`Extract` returns that error, and the copy of the library has already been
dispatched. -/
theorem directory_error_after_dispatch :
    (Extract worldMkdirFails (State.start [])
        [WithFiles [binApp], WithOutputDir tmpOut]).1 = some "permission denied" ∧
    dispatched (Extract worldMkdirFails (State.start [])
        [WithFiles [binApp], WithOutputDir tmpOut]).2.trace =
      [(libExample, "/tmp/out/lib/libexample.so.1".toList)] := by
  decide

/-- C10, amended: when the creation of a destination directory fails, at the
first iteration where it does `Extract` returns that error at once and
dispatches no copy for that iteration or a later one.  The copies of the
iterations before it have already been dispatched, one per iteration, and the
directories of those iterations have been created. -/
theorem directory_error_aborts (w : World) (tree : List Path) (o : List option) (c : config)
    (deps : List FileInfo) (pre : List Item) (x : Item) (post : List Item) (err : Error)
    (hopt : applyOptions o { files := [], outDir := [] } = .ok c)
    (hldd : w.Ldd c.files = .ok deps)
    (hplan : extractPlan c deps = pre ++ x :: post)
    (hpre : ∀ y ∈ pre, w.MkdirAll y.dir = none) (hx : w.MkdirAll x.dir = some err) :
    (Extract w (State.start tree) o).1 = some err ∧
      dispatched (Extract w (State.start tree) o).2.trace = pre.map Item.copy ∧
      created (Extract w (State.start tree) o).2.trace = pre.map Item.dir := by
  rw [Extract_fail w _ o c deps pre x post err hopt hldd hplan hpre hx]
  refine ⟨rfl, ?_, ?_⟩
  · simp [stateAfter, State.start, dispatched_append, dispatched_planEvents, dispatched]
  · simp [stateAfter, State.start, created_append, created_planEvents, created]

/-- C10, amended, where the directory of the binary cannot be created: the
error is returned and exactly the copy of the library has been dispatched. -/
theorem directory_error_aborts_witness :
    (Extract worldMkdirFails (State.start [])
        [WithFiles [binApp], WithOutputDir tmpOut]).1 = some "permission denied" ∧
    dispatched (Extract worldMkdirFails (State.start [])
        [WithFiles [binApp], WithOutputDir tmpOut]).2.trace =
      [depItem tmpOut libEntry].map Item.copy :=
  have h := directory_error_aborts worldMkdirFails [] [WithFiles [binApp], WithOutputDir tmpOut]
    { files := [binApp], outDir := tmpOut } [libEntry] [depItem tmpOut libEntry]
    (fileItem tmpOut binApp) [] "permission denied" rfl rfl rfl (by decide) (by decide)
  ⟨h.1, h.2.1⟩

end Poco
